import Mathlib

/-!
# A shallow embedding of PyRTL's wirevector construction layer

This file embeds `src/pyrtl/wirevector.py` (the wire-vector model, the
operator/netlist-construction layer and the memory-block aggregator) in
Lean 4 and proves the specification claims about it.

Python object mutation is modelled by explicit state passing: every
construction operation takes the netlist container (`Block`) and returns
the possibly-updated container together with an `Except`-style result.
A Python exception is modelled as `Except.error`; mutations performed
before the raise persist in the returned `Block`, exactly as they do in
Python.

Python wire objects are compared by identity; here every wire carries a
unique numeric `id` allocated from a counter in the `Block`, and
structural equality of `Wire` coincides with Python object identity for
wires created through the API.
-/

namespace PyRTL

/-- Wire names.  Python builds these as strings; we model the distinct
string shapes as constructors so that counter-generated names are
manifestly disjoint from user-supplied strings.
`temp n` stands for the string produced by `Block.next_tempvar_name`
(a temporary name with index `n`); `constName n v` for the string
produced by `Block.next_constvar_name(v)` (index `n`, constant value
`v`); `primed w` for the Python string `w + "'"` used for a register's
internal next-wire. -/
inductive WName where
  | user (s : String)
  | temp (n : Nat)
  | constName (n : Nat) (val : Int)
  | primed (base : WName)
deriving DecidableEq, Repr

/-- Render a `WName` to the string Python would have built.  `primed`
appends an apostrophe (character 39). -/
def WName.render : WName → String
  | .user s => s
  | .temp n => "tmp" ++ toString n
  | .constName n v => "const" ++ toString n ++ "_" ++ toString v
  | .primed w => (WName.render w).push (Char.ofNat 39)

/-- The Python class of a wire, minus signedness: `WireVector`, `Input`,
`Output`, `Const` (which records its value in the member `val`), and
`Register`.  The five `Signed*` subclasses differ from their bases only
in the `extended` method, so signedness is a separate flag on `Wire`. -/
inductive WireClass where
  | plain
  | input
  | output
  | const (val : Nat)
  | register
deriving DecidableEq, Repr

/-- A wire vector: `name`, `bitwidth` (Python allows `None`, hence
`Option`), the class and the signedness flag, plus the identity `id`. -/
structure Wire where
  id : Nat
  name : WName
  bitwidth : Option Nat
  signed : Bool
  cls : WireClass
deriving DecidableEq, Repr

/-- The operation kind of a logic node.  Python uses one-character
strings; `op = None` (the connect/assign node) is modelled by the
`Option` in `LogicNet.op`. -/
inductive Op where
  | band   -- '&'
  | bor    -- '|'
  | bxor   -- '^'
  | add    -- '+'
  | sub    -- '-'
  | mul    -- '*'
  | bnot   -- '~'
  | select -- 's'
  | concat -- 'c'
  | reg    -- 'r'
  | mem    -- 'm'
deriving DecidableEq, Repr

/-- The per-operation parameter: `None`, the tuple of selected bit
positions for `'s'`, or the `(memid, read-port count, write-port count)`
triple for `'m'`. -/
inductive OpParam where
  | noneP
  | sel (positions : List Nat)
  | memp (memid nreads nwrites : Nat)
deriving DecidableEq, Repr

/-- A logic node: `LogicNet(op, op_param, args, dests)`.  `op = none`
is the connect/assign node (Python `op=None`). -/
structure LogicNet where
  op : Option Op
  op_param : OpParam
  args : List Wire
  dests : List Wire
deriving DecidableEq, Repr

/-- Modelled from the spec: the netlist container (`Block`, defined in
the repository's `block.py`, which is not under `src/`).  Per spec §3 it
owns the set of wire-vectors, the ordered collection of logic nodes and
monotonic counters for temporary names, constant names and memory
identities.  `nextWireId` models Python object identity for wires. -/
structure Block where
  wires : List Wire
  logic : List LogicNet
  tempvar : Nat
  constvar : Nat
  memid : Nat
  nextWireId : Nat
deriving DecidableEq, Repr

/-- The empty netlist container. -/
def Block.empty : Block :=
  { wires := [], logic := [], tempvar := 0, constvar := 0, memid := 0,
    nextWireId := 0 }

/-- Modelled from the spec: `Block.add_wirevector` registers a wire
under a unique name and fails with a naming-conflict error on collision
(spec §4.1).  Registration also consumes the object-identity counter
`nextWireId` that models Python object allocation. -/
def Block.add_wirevector (b : Block) (w : Wire) : Except String Block :=
  if b.wires.any (fun x => x.name = w.name) then
    .error "duplicate wire name"
  else
    .ok { b with wires := b.wires ++ [w],
                 nextWireId := b.nextWireId + 1 }

/-- Modelled from the spec: `Block.add_net` registers a new logic node
(spec §4.1); nodes form an ordered collection, so append. -/
def Block.add_net (b : Block) (n : LogicNet) : Block :=
  { b with logic := b.logic ++ [n] }

/-- Modelled from the spec: `Block.next_tempvar_name` allocates the next
unique temporary wire name from a monotonic counter (spec §4.1). -/
def Block.next_tempvar_name (b : Block) : WName × Block :=
  (.temp b.tempvar, { b with tempvar := b.tempvar + 1 })

/-- Modelled from the spec: `Block.next_constvar_name(val)` allocates
the next unique constant name from a monotonic counter (spec §4.1). -/
def Block.next_constvar_name (b : Block) (val : Int) : WName × Block :=
  (.constName b.constvar val, { b with constvar := b.constvar + 1 })

/-- Modelled from the spec: `Block.next_memid` allocates the next memory
identity from a monotonic counter (spec §4.1). -/
def Block.next_memid (b : Block) : Nat × Block :=
  (b.memid, { b with memid := b.memid + 1 })

/-- Is a name one of the reserved clock names?  Python:
`name.lower() in ['clk', 'clock']`, modelled on the character lists
(string equality is exactly equality of the character data).
Counter-generated and primed names are never equal to either string
(temporary names start with letters "tmp", constant names with
"const", and a primed name ends in an apostrophe), which this
predicate reflects. -/
def isClkName : WName → Bool
  | .user s =>
      s.data.map Char.toLower = "clk".data ||
      s.data.map Char.toLower = "clock".data
  | _ => false

/-- Embeds `WireVector.__init__` (wirevector.py lines 52-84): resolve the name
(allocating a temporary one when absent), reject reserved clock names,
reject a non-positive bitwidth, then register the wire in the block.
The `block` argument of the Python constructor is the threaded `Block`.
A Python `bitwidth` that is not an `int` is outside the modelled domain
(the model's types already exclude it), and a negative `int` bitwidth is
modelled together with `0` by `some 0` since both fail the `> 0` check. -/
def mkWire (bitwidth : Option Nat) (name : Option WName) (signed : Bool)
    (cls : WireClass) (b : Block) : Except String Wire × Block :=
  let (nm, b1) :=
    match name with
    | none => b.next_tempvar_name
    | some s => (s, b)
  if isClkName nm then
    (.error "Clock signals should never be explicitly instantiated", b1)
  else
    match bitwidth with
    | some 0 =>
        (.error "all bitwidths must be > 0", b1)
    | _ =>
        let w : Wire :=
          { id := b1.nextWireId, name := nm, bitwidth := bitwidth,
            signed := signed, cls := cls }
        match b1.add_wirevector w with
        | .ok b2 => (.ok w, b2)
        | .error e => (.error e, b1)

/-- Python list indexing `allindex[item]` for an integer `item` over a
list of length `len`: negative indices count from the end, out-of-range
indices raise `IndexError` (modelled as `none`). -/
def pyIndex (len : Nat) (i : Int) : Option Nat :=
  let j : Int := if i < 0 then i + len else i
  if 0 ≤ j ∧ j < len then some j.toNat else none

/-- The common tail of `WireVector.__getitem__` (wirevector.py lines
186-200): allocate `outwire` with bitwidth `len(selectednums)` and
append one select node with `op_param = tuple(selectednums)`. -/
def selectTail (w : Wire) (selectednums : List Nat) (b : Block) :
    Except String Wire × Block :=
  match mkWire (some selectednums.length) none false .plain b with
  | (.error e, b1) => (.error e, b1)
  | (.ok outwire, b1) =>
      let net : LogicNet :=
        { op := some .select, op_param := .sel selectednums,
          args := [w], dests := [outwire] }
      (.ok outwire, b1.add_net net)

/-- Embeds `WireVector.__getitem__` with an `int` index: `selectednums =
[allindex[item]]`.  A `None` bitwidth fails the method's `assert`, and a
Python `IndexError` is an error too. -/
def Wire.getitemInt (w : Wire) (i : Int) (b : Block) :
    Except String Wire × Block :=
  match w.bitwidth with
  | none => (.error "assert self.bitwidth is not None", b)
  | some len =>
      match pyIndex len i with
      | none => (.error "IndexError", b)
      | some j => selectTail w [j] b

/-- Embeds `WireVector.__getitem__` with the slice `[:stop]` (the only slice
shape the embedded call sites use): `selectednums = allindex[:stop]`,
i.e. the first `stop` elements of `range(bitwidth)`. -/
def Wire.getitemSliceTo (w : Wire) (stop : Nat) (b : Block) :
    Except String Wire × Block :=
  match w.bitwidth with
  | none => (.error "assert self.bitwidth is not None", b)
  | some len => selectTail w ((List.range len).take stop) b

/-- The quantity `len(bin(num)) - 2`, the bitwidth `Const.__init__`
infers when none is given: one binary digit for 0, `floor(log2 num) + 1` otherwise. -/
def inferredWidth (num : Int) : Nat :=
  if num ≤ 0 then 1 else (num.toNat).log2 + 1

/-- Embeds `Const.__init__` restricted to the integer-value branch
(wirevector.py lines 264-305).  The name is drawn from
`next_constvar_name` first (its counter advances even when a later
check fails, as in Python); with no explicit bitwidth the width is
inferred as `len(bin(num)) - 2`; then the value and width checks run,
and finally `WireVector.__init__` executes with the computed name and
width.  The member `val` is recorded in the wire's class.
The string-literal branch of the constructor is not embedded (no claim
touches it). -/
def constInit (val : Int) (bitwidth : Option Nat) (b : Block) :
    Except String Wire × Block :=
  let (name, b1) := b.next_constvar_name val
  let bw : Nat :=
    match bitwidth with
    | some w => w
    | none => inferredWidth val
  if val < 0 then
    (.error "Const is only for unsigned numbers and must be positive", b1)
  else if val.toNat >>> bw ≠ 0 then
    (.error "error constant cannot fit in the specified bits", b1)
  else
    mkWire (some bw) (some name) false (.const val.toNat) b1

/-- Python `len(wire)` (`__len__` returns `self.bitwidth`): a `None`
bitwidth makes `len()` raise a `TypeError`, modelled as an error. -/
def pyLen (w : Wire) : Except String Nat :=
  match w.bitwidth with
  | some n => .ok n
  | none => .error "TypeError: __len__ returned None"

/-- Embeds `[len(arg) for arg in args]`: the widths of a list of wires, failing
like Python `len` does on a `None` width. -/
def wireLens : List Wire → Except String (List Nat)
  | [] => .ok []
  | w :: ws =>
      match pyLen w, wireLens ws with
      | .ok n, .ok ns => .ok (n :: ns)
      | .error e, _ => .error e
      | .ok _, .error e => .error e

/-- Embeds `concat(*args)` (wirevector.py lines 507-522): no arguments is an
error; a single argument is returned unchanged with no new node;
otherwise a fresh wire of the summed widths is allocated and one
concat node appended. -/
def concatList (args : List Wire) (b : Block) :
    Except String Wire × Block :=
  match args with
  | [] => (.error "PyrtlError", b)
  | [a] => (.ok a, b)
  | _ =>
      match wireLens args with
      | .error e => (.error e, b)
      | .ok lens =>
          match mkWire (some lens.sum) none false .plain b with
          | (.error e, b1) => (.error e, b1)
          | (.ok outwire, b1) =>
              let net : LogicNet :=
                { op := some .concat, op_param := .noneP,
                  args := args, dests := [outwire] }
              (.ok outwire, b1.add_net net)

/-- Embeds `_extend_with_bit` (wirevector.py lines 217-232): `numext =
bitwidth - self.bitwidth`; zero is a no-op returning `self`, negative
is an error, positive allocates `extvector` of `numext` bits driven by
a select node replicating `extbit` (`op_param = (0,)*numext`) and
concatenates it above the original bits. -/
def Wire.extendWithBit (w : Wire) (bitwidth : Nat) (extbit : Wire)
    (b : Block) : Except String Wire × Block :=
  match w.bitwidth with
  | none => (.error "TypeError: bitwidth is None", b)
  | some k =>
      if bitwidth = k then (.ok w, b)
      else if bitwidth < k then
        (.error "zero_extended cannot reduce the number of bits", b)
      else
        let numext := bitwidth - k
        match mkWire (some numext) none false .plain b with
        | (.error e, b1) => (.error e, b1)
        | (.ok extvector, b1) =>
            let net : LogicNet :=
              { op := some .select,
                op_param := .sel (List.replicate numext 0),
                args := [extbit], dests := [extvector] }
            let b2 := b1.add_net net
            concatList [extvector, w] b2

/-- Embeds `sign_extended` (wirevector.py lines 205-207): extend with the
wire's own most-significant bit `self[-1]`.  The sign-bit select node is
built before `_extend_with_bit` runs, as in Python. -/
def Wire.sign_extended (w : Wire) (bitwidth : Nat) (b : Block) :
    Except String Wire × Block :=
  match w.getitemInt (-1) b with
  | (.error e, b1) => (.error e, b1)
  | (.ok signbit, b1) => w.extendWithBit bitwidth signbit b1

/-- Embeds `zero_extended` (wirevector.py lines 209-211): extend with a fresh
one-bit zero constant.  The constant wire is allocated before
`_extend_with_bit` runs, as in Python. -/
def Wire.zero_extended (w : Wire) (bitwidth : Nat) (b : Block) :
    Except String Wire × Block :=
  match constInit 0 (some 1) b with
  | (.error e, b1) => (.error e, b1)
  | (.ok zbit, b1) => w.extendWithBit bitwidth zbit b1

/-- Embeds `extended` with Python's dynamic dispatch: the base classes use
`zero_extended`; each `Signed*` subclass overrides it with
`sign_extended` (wirevector.py lines 213-215 and 359-381). -/
def Wire.extended (w : Wire) (bitwidth : Nat) (b : Block) :
    Except String Wire × Block :=
  if w.signed then w.sign_extended bitwidth b
  else w.zero_extended bitwidth b

/-- The six binary operator characters `logicop` is invoked with by the
`__and__`/`__or__`/`__xor__`/`__add__`/`__sub__`/`__mul__` wrappers. -/
inductive BinOp where
  | band | bor | bxor | add | sub | mul
deriving DecidableEq, Repr

/-- The `Op` tag of a binary operator character. -/
def BinOp.toOp : BinOp → Op
  | .band => .band
  | .bor => .bor
  | .bxor => .bxor
  | .add => .add
  | .sub => .sub
  | .mul => .mul

/-- Embeds `WireVector.logicop` (wirevector.py lines 116-138) on wire
operands: extend the narrower operand to the wider width with its own
`extended` rule, compute the result length from the rule table
(`+`/`-` add one, `*` doubles), allocate a fresh result wire and append
one node.  The `Const(b)` normalization branch applies only to raw
integer operands, which the callers of interest pass as wires. -/
def Wire.logicop (a0 b0 : Wire) (op : BinOp) (blk : Block) :
    Except String Wire × Block :=
  match pyLen a0, pyLen b0 with
  | .ok la, .ok lb =>
      let step : Except String (Wire × Wire) × Block :=
        if la < lb then
          match a0.extended lb blk with
          | (.error e, b1) => (.error e, b1)
          | (.ok a1, b1) => (.ok (a1, b0), b1)
        else if lb < la then
          match b0.extended la blk with
          | (.error e, b1) => (.error e, b1)
          | (.ok b1w, b1) => (.ok (a0, b1w), b1)
        else (.ok (a0, b0), blk)
      match step with
      | (.error e, b1) => (.error e, b1)
      | (.ok (a, bb), b1) =>
          match pyLen a with
          | .error e => (.error e, b1)
          | .ok n =>
              let r1 := if op = .add ∨ op = .sub then n + 1 else n
              let resultlen := if op = .mul then r1 * 2 else r1
              match mkWire (some resultlen) none false .plain b1 with
              | (.error e, b2) => (.error e, b2)
              | (.ok s, b2) =>
                  let net : LogicNet :=
                    { op := some op.toOp, op_param := .noneP,
                      args := [a, bb], dests := [s] }
                  (.ok s, b2.add_net net)
  | .error e, _ => (.error e, blk)
  | _, .error e => (.error e, blk)

/-- Embeds `WireVector.__invert__` (wirevector.py lines 176-184): fresh wire of
the operand's width, one not-node. -/
def Wire.invert (w : Wire) (b : Block) : Except String Wire × Block :=
  match pyLen w with
  | .error e => (.error e, b)
  | .ok n =>
      match mkWire (some n) none false .plain b with
      | (.error e, b1) => (.error e, b1)
      | (.ok outwire, b1) =>
          let net : LogicNet :=
            { op := some .bnot, op_param := .noneP,
              args := [w], dests := [outwire] }
          (.ok outwire, b1.add_net net)

/-- Embeds `WireVector.__ilshift__` (wirevector.py lines 95-114) on a wire
source: a `None` target width fails; a wider source is truncated by the
slice `other[:self.bitwidth]`; a narrower source is extended by the
source's `extended`; then one connect node (`op=None`) is appended with
the target as destination, and the target is returned.  A `None` source
width fails inside the extension arithmetic, modelled as the error
branch. -/
def Wire.ilshiftBase (self other : Wire) (b : Block) :
    Except String Wire × Block :=
  match self.bitwidth with
  | none => (.error "PyrtlError", b)
  | some t =>
      match other.bitwidth with
      | none => (.error "TypeError: unsupported operand", b)
      | some s =>
          let step : Except String Wire × Block :=
            if t < s then other.getitemSliceTo t b
            else if s < t then other.extended t b
            else (.ok other, b)
          match step with
          | (.error e, b1) => (.error e, b1)
          | (.ok o2, b1) =>
              let net : LogicNet :=
                { op := none, op_param := .noneP,
                  args := [o2], dests := [self] }
              (.ok self, b1.add_net net)

/-- Embeds the connect assignment with Python's dynamic dispatch: `Input.__ilshift__`
(lines 247-250), `Const.__ilshift__` (lines 307-310) and
`Register.__ilshift__` (lines 332-335) raise immediately with a message
naming the wire; every other class inherits the base implementation. -/
def Wire.ilshift (self other : Wire) (b : Block) :
    Except String Wire × Block :=
  match self.cls with
  | .input =>
      (.error ("Input, such as " ++ self.name.render ++
        ", cannot have values generated internally"), b)
  | .const _ =>
      (.error ("ConstWires, such as " ++ self.name.render ++
        ", should never be assigned to with ilshift"), b)
  | .register =>
      (.error ("Registers, such as " ++ self.name.render ++
        ", should never be assigned to with ilshift"), b)
  | _ => self.ilshiftBase other b

/-- A `Register` object: its visible wire plus the mutable `reg_in`
member (`None` until the first binding). -/
structure Register where
  wire : Wire
  reg_in : Option Wire
deriving DecidableEq, Repr

/-- Embeds `Register.__init__` (wirevector.py lines 316-318). -/
def mkRegister (bitwidth : Option Nat) (name : Option WName)
    (signed : Bool) (b : Block) : Except String Register × Block :=
  match mkWire bitwidth name signed .register b with
  | (.error e, b1) => (.error e, b1)
  | (.ok w, b1) => (.ok { wire := w, reg_in := none }, b1)

/-- Embeds `Register._makereg` (wirevector.py lines 320-330): on first use
allocate the internal next-wire (named `self.name + "'"`) and append
the register node with it as argument and the register as destination;
afterwards return the cached `reg_in`. -/
def Register.makereg (r : Register) (b : Block) :
    Except String (Wire × Register) × Block :=
  match r.reg_in with
  | some n => (.ok (n, r), b)
  | none =>
      match mkWire r.wire.bitwidth (some (.primed r.wire.name)) false
          .plain b with
      | (.error e, b1) => (.error e, b1)
      | (.ok n, b1) =>
          let net : LogicNet :=
            { op := some .reg, op_param := .noneP,
              args := [n], dests := [r.wire] }
          (.ok (n, { r with reg_in := some n }), b1.add_net net)

/-- The `next` setter (wirevector.py lines 341-350): setting `next` to
the object already stored in `reg_in` returns silently; any other
binding while `reg_in` is set raises; the first binding creates the
register node via `_makereg` and connects the next-wire to the value
with `<<=`.  Python compares `reg_in == value` by object identity,
which structural equality models (API-created wires carry unique ids). -/
def Register.setNext (r : Register) (value : Wire) (b : Block) :
    Except String Register × Block :=
  match r.reg_in with
  | some n =>
      if n = value then (.ok r, b)
      else (.error "PyrtlError", b)
  | none =>
      match r.makereg b with
      | (.error e, b1) => (.error e, b1)
      | (.ok (n, r1), b1) =>
          match n.ilshift value b1 with
          | (.error e, b2) => (.error e, b2)
          | (.ok _, b2) => (.ok r1, b2)

/-- A write access's value: a plain data wire (always enabled) or a
`DataWithEnable(data, enable)` pair. -/
inductive MemInput where
  | plainData (w : Wire)
  | withEnable (data enable : Wire)
deriving DecidableEq, Repr

/-- A `MemBlock` object: dimensions, identity, the cached
`stored_net`, and the accumulated port lists. -/
structure MemBlock where
  bitwidth : Nat
  addrwidth : Nat
  name : WName
  stored_net : Option LogicNet
  id : Nat
  read_addr : List Wire
  read_data : List Wire
  write_addr : List Wire
  write_data : List Wire
  write_enable : List Wire
deriving DecidableEq, Repr

/-- Embeds `MemBlock.__init__` (wirevector.py lines 407-433): reject
non-positive dimensions, default the name, draw a fresh memory
identity, start with empty port lists and no stored net. -/
def mkMemBlock (bitwidth addrwidth : Nat) (name : Option WName)
    (b : Block) : Except String MemBlock × Block :=
  if bitwidth = 0 then (.error "PyrtlError", b)
  else if addrwidth = 0 then (.error "PyrtlError", b)
  else
    let (nm, b1) :=
      match name with
      | none => b.next_tempvar_name
      | some s => (s, b)
    let (mid, b2) := b1.next_memid
    (.ok { bitwidth := bitwidth, addrwidth := addrwidth, name := nm,
           stored_net := none, id := mid, read_addr := [],
           read_data := [], write_addr := [], write_data := [],
           write_enable := [] }, b2)

/-- Embeds `zip(write_addr, write_data, write_enable)` flattened: for each
write port its (address, data, enable) triple in that order, truncating
at the shortest list as Python `zip` does. -/
def flattenWrites : List Wire → List Wire → List Wire → List Wire
  | a :: as, d :: ds, e :: es => a :: d :: e :: flattenWrites as ds es
  | _, _, _ => []

/-- The node `_update_net` derives from the current full port lists:
all read addresses followed by the flattened write triples as
arguments, the read-data wires as destinations, and the
`(memory identity, read-port count, write-port count)` parameter. -/
def MemBlock.derivedNet (m : MemBlock) : LogicNet :=
  { op := some .mem,
    op_param := .memp m.id m.read_addr.length m.write_addr.length,
    args := m.read_addr ++
      flattenWrites m.write_addr m.write_data m.write_enable,
    dests := m.read_data }

/-- Embeds `MemBlock._update_net` (wirevector.py lines 448-462): drop the
previously stored node from the netlist (Python `logic.remove`, which
deletes the node equal to `stored_net`; modelled by `List.erase`, which
coincides because the stored node is in the netlist exactly once —
proved below), assert the write lists are aligned, then register the
re-derived node and cache it. -/
def MemBlock.updateNet (m : MemBlock) (b : Block) :
    Except String MemBlock × Block :=
  let b1 :=
    match m.stored_net with
    | some n => { b with logic := b.logic.erase n }
    | none => b
  if m.write_addr.length ≠ m.write_data.length then
    (.error "AssertionError", b1)
  else
    (.ok { m with stored_net := some m.derivedNet },
     b1.add_net m.derivedNet)

/-- Embeds `MemBlock.__getitem__` (wirevector.py lines 435-446): the index
must be a wire of exactly the address width; a fresh data wire of the
block's bitwidth is allocated, the read port appended, and the node
re-derived. -/
def MemBlock.getitem (m : MemBlock) (item : Wire) (b : Block) :
    Except String (Wire × MemBlock) × Block :=
  match pyLen item with
  | .error e => (.error e, b)
  | .ok l =>
      if l ≠ m.addrwidth then
        (.error "width of memblock index does not match addrwidth", b)
      else
        match mkWire (some m.bitwidth) none false .plain b with
        | (.error e, b1) => (.error e, b1)
        | (.ok data, b1) =>
            let m1 :=
              { m with read_data := m.read_data ++ [data],
                       read_addr := m.read_addr ++ [item] }
            match m1.updateNet b1 with
            | (.error e, b2) => (.error e, b2)
            | (.ok m2, b2) => (.ok (data, m2), b2)

/-- Embeds `MemBlock.__setitem__` (wirevector.py lines 464-489): the index
must be a wire of the address width; a plain data value gets a fresh
always-on `Const(1, bitwidth=1)` enable; the data must match the
block's bitwidth and the enable must be one bit; then the write port is
appended and the node re-derived. -/
def MemBlock.setitem (m : MemBlock) (item : Wire) (val : MemInput)
    (b : Block) : Except String MemBlock × Block :=
  match pyLen item with
  | .error e => (.error e, b)
  | .ok l =>
      if l ≠ m.addrwidth then (.error "PyrtlError", b)
      else
        let dataEnable : Except String (Wire × Wire) × Block :=
          match val with
          | .plainData d =>
              match constInit 1 (some 1) b with
              | (.error e, b1) => (.error e, b1)
              | (.ok en, b1) => (.ok (d, en), b1)
          | .withEnable d en => (.ok (d, en), b)
        match dataEnable with
        | (.error e, b1) => (.error e, b1)
        | (.ok (data, enable), b1) =>
            match pyLen data, pyLen enable with
            | .ok ld, .ok le =>
                if ld ≠ m.bitwidth then (.error "PyrtlError", b1)
                else if le ≠ 1 then (.error "PyrtlError", b1)
                else
                  let m1 :=
                    { m with
                      write_data := m.write_data ++ [data],
                      write_addr := m.write_addr ++ [item],
                      write_enable := m.write_enable ++ [enable] }
                  m1.updateNet b1
            | .error e, _ => (.error e, b1)
            | _, .error e => (.error e, b1)

/-!
## Definitions supporting the claim statements
-/

/-- The number of connect-kind nodes (`op = None`) in a node list. -/
def countConnect (l : List LogicNet) : Nat :=
  (l.filter (fun n => n.op = none)).length

/-- Does a node carry the memory parameter of identity `i`? -/
def netHasMemId (i : Nat) (n : LogicNet) : Bool :=
  match n.op_param with
  | .memp j _ _ => j == i
  | _ => false

/-- Modelled from the claim's words, for refinement comparison only:
the connect operation as the claim states it, with a narrower source
extended per the TARGET's extension rule instead of the source's. -/
def ilshiftTargetRule (self other : Wire) (b : Block) :
    Except String Wire × Block :=
  match self.bitwidth with
  | none => (.error "PyrtlError", b)
  | some t =>
      match other.bitwidth with
      | none => (.error "TypeError: unsupported operand", b)
      | some s =>
          let step : Except String Wire × Block :=
            if t < s then other.getitemSliceTo t b
            else if s < t then
              (if self.signed then other.sign_extended t b
               else other.zero_extended t b)
            else (.ok other, b)
          match step with
          | (.error e, b1) => (.error e, b1)
          | (.ok o2, b1) =>
              let net : LogicNet :=
                { op := none, op_param := .noneP,
                  args := [o2], dests := [self] }
              (.ok self, b1.add_net net)

/-- One operator invocation among and/or/xor/add/sub/mul/not/select/
concat, as the spec's operator table enumerates them. -/
inductive OpCall where
  | binop (op : BinOp) (a b : Wire)
  | inv (a : Wire)
  | selIdx (a : Wire) (i : Int)
  | cat (args : List Wire)
deriving DecidableEq, Repr

/-- The operand wires of an operator invocation. -/
def OpCall.operands : OpCall → List Wire
  | .binop _ a b => [a, b]
  | .inv a => [a]
  | .selIdx a _ => [a]
  | .cat args => args

/-- Dispatch an operator invocation to the embedded operation. -/
def invoke : OpCall → Block → Except String Wire × Block
  | .binop op a b, blk => Wire.logicop a b op blk
  | .inv a, blk => a.invert blk
  | .selIdx a i, blk => a.getitemInt i blk
  | .cat args, blk => concatList args blk

/-- For a binary operation, both operand widths are present and equal
(so no extension nodes interleave); vacuous for the other calls. -/
def widthsMatched : OpCall → Bool
  | .binop _ a b =>
      match a.bitwidth, b.bitwidth with
      | some x, some y => x == y
      | _, _ => false
  | _ => true

/-- Is the call `concat` applied to a single argument? -/
def isSingleCat : OpCall → Bool
  | .cat [_] => true
  | _ => false

/-- The node kind an operator invocation builds: the operator character
for a binary operation, and not/select/concat for the others. -/
def opKind : OpCall → Op
  | .binop op _ _ => op.toOp
  | .inv _ => .bnot
  | .selIdx _ _ => .select
  | .cat _ => .concat

/-- One memory-block access: a read at an address, or a write of a
value at an address. -/
inductive MemAccess where
  | readA (addr : Wire)
  | writeA (addr : Wire) (val : MemInput)
deriving DecidableEq, Repr

/-- Perform one access, keeping the updated block object (the data wire
a read returns is recorded in `read_data`). -/
def memStep (m : MemBlock) (a : MemAccess) (b : Block) :
    Except String MemBlock × Block :=
  match a with
  | .readA addr =>
      match m.getitem addr b with
      | (.error e, b1) => (.error e, b1)
      | (.ok (_, m1), b1) => (.ok m1, b1)
  | .writeA addr val => m.setitem addr val b

/-- Perform a sequence of accesses, stopping at the first failure. -/
def memRun (m : MemBlock) (as : List MemAccess) (b : Block) :
    Except String MemBlock × Block :=
  match as with
  | [] => (.ok m, b)
  | a :: rest =>
      match memStep m a b with
      | (.error e, b1) => (.error e, b1)
      | (.ok m1, b1) => memRun m1 rest b1

/-- The read addresses of a list of accesses, in call order. -/
def readAddrs (as : List MemAccess) : List Wire :=
  as.filterMap fun a =>
    match a with
    | .readA x => some x
    | _ => none

/-- The write addresses of a list of accesses, in call order. -/
def writeAddrs (as : List MemAccess) : List Wire :=
  as.filterMap fun a =>
    match a with
    | .writeA x _ => some x
    | _ => none

/-- The data wire of a write value. -/
def MemInput.dataOf : MemInput → Wire
  | .plainData d => d
  | .withEnable d _ => d

/-- The write data wires of a list of accesses, in call order. -/
def writeDatas (as : List MemAccess) : List Wire :=
  as.filterMap fun a =>
    match a with
    | .writeA _ v => some v.dataOf
    | _ => none

/-- The consistency invariant a memory block maintains with its netlist
container: the port lists are aligned, and the netlist holds exactly
the nodes of identity `m.id` recorded by `stored_net` — none before the
first access, afterwards exactly the one re-derived node. -/
def memInv (m : MemBlock) (b : Block) : Prop :=
  m.write_addr.length = m.write_data.length ∧
  m.write_data.length = m.write_enable.length ∧
  m.read_addr.length = m.read_data.length ∧
  (match m.stored_net with
   | none => b.logic.filter (netHasMemId m.id) = []
   | some n => n = m.derivedNet ∧ b.logic.filter (netHasMemId m.id) = [n])

/-!
## Concrete wires and blocks for the counterexample and witness runs
-/

/-- A 1-bit unsigned plain wire. -/
def wa1 : Wire := ⟨0, .user "a", some 1, false, .plain⟩

/-- A 2-bit unsigned plain wire. -/
def wb2 : Wire := ⟨1, .user "b", some 2, false, .plain⟩

/-- A block holding `wa1` and `wb2`. -/
def blkAB : Block := ⟨[wa1, wb2], [], 0, 0, 0, 2⟩

/-- A 2-bit unsigned plain wire used as a connect target. -/
def wt2 : Wire := ⟨0, .user "t", some 2, false, .plain⟩

/-- A 1-bit SIGNED plain wire used as a connect source. -/
def ws1 : Wire := ⟨1, .user "s", some 1, true, .plain⟩

/-- A block holding `wt2` and `ws1`. -/
def blkTS : Block := ⟨[wt2, ws1], [], 0, 0, 0, 2⟩

/-- A 2-bit signed plain wire. -/
def wk2 : Wire := ⟨0, .user "k", some 2, true, .plain⟩

/-- A block holding `wk2`. -/
def blkK : Block := ⟨[wk2], [], 0, 0, 0, 1⟩

/-- A fresh 1-bit register object. -/
def regR : Register := ⟨⟨0, .user "r", some 1, false, .register⟩, none⟩

/-- A 1-bit value wire for register bindings. -/
def wv1 : Wire := ⟨1, .user "v", some 1, false, .plain⟩

/-- A block holding the register's wire and `wv1`. -/
def blkR : Block := ⟨[regR.wire, wv1], [], 0, 0, 0, 2⟩

/-- The internal next-wire the first binding of `regR` allocates. -/
def nR : Wire := ⟨2, .primed (.user "r"), some 1, false, .plain⟩

/-- The register `regR` after its first binding. -/
def regR1 : Register := ⟨regR.wire, some nR⟩

/-- The block state after the first binding of `regR` to `wv1`. -/
def blkR1 : Block := (Register.setNext regR wv1 blkR).2

/-- A 1-bit input wire. -/
def win1 : Wire := ⟨0, .user "in1", some 1, false, .input⟩

/-- A 1-bit source wire accompanying `win1`. -/
def wsrc : Wire := ⟨1, .user "x", some 1, false, .plain⟩

/-- A block holding `win1` and `wsrc`. -/
def blkIn : Block := ⟨[win1, wsrc], [], 0, 0, 0, 2⟩

/-- A 1-bit address wire for the memory scenario. -/
def addrW : Wire := ⟨0, .user "ad", some 1, false, .plain⟩

/-- A 1-bit data wire for the memory scenario. -/
def datW : Wire := ⟨1, .user "da", some 1, false, .plain⟩

/-- A 1-bit enable wire for the memory scenario. -/
def enW : Wire := ⟨2, .user "en", some 1, false, .plain⟩

/-- A block holding the three memory-scenario wires. -/
def blkM : Block := ⟨[addrW, datW, enW], [], 0, 0, 0, 3⟩

/-- A fresh 1-bit-data, 1-bit-address memory block of identity 0. -/
def memM : MemBlock := ⟨1, 1, .user "m", none, 0, [], [], [], [], []⟩

/-- The access sequence of the memory scenario: one read then one
enabled write, both at `addrW`. -/
def accsM : List MemAccess :=
  [.readA addrW, .writeA addrW (.withEnable datW enW)]

/-- The result wire of multiplying `wa1` by `wb2`. -/
def c1s : Wire := ⟨5, .temp 2, some 4, false, .plain⟩

/-- The result wire of the bitwise and of `wa1` (1 bit) and `wb2`
(2 bits). -/
def c6s : Wire := ⟨5, .temp 2, some 2, false, .plain⟩

/-- The result wire of adding `wa1` and `wb2`. -/
def c7s : Wire := ⟨5, .temp 2, some 3, false, .plain⟩

/-- The constant wire recording value 5 at width 3. -/
def c85 : Wire := ⟨0, .constName 0 5, some 3, false, .const 5⟩

/-- The fresh data wire the memory-scenario read allocates. -/
def datR : Wire := ⟨3, .temp 0, some 1, false, .plain⟩

/-- The memory block after the scenario's read and write. -/
def memM2 : MemBlock :=
  ⟨1, 1, .user "m",
   some ⟨some .mem, .memp 0 1 1, [addrW, addrW, datW, enW], [datR]⟩,
   0, [addrW], [datR], [addrW], [datW], [enW]⟩

/-!
## Helper lemmas about the construction primitives
-/

/-- What a successful `WireVector.__init__` guarantees: the returned
wire carries the requested attributes and a fresh identity, and the
block gains that wire and nothing else — in particular the netlist
(`logic`) is untouched. -/
theorem mkWire_ok {bw : Option Nat} {nm : Option WName} {sg : Bool}
    {cls : WireClass} {b : Block} {w' : Wire} {b' : Block}
    (h : mkWire bw nm sg cls b = (.ok w', b')) :
    w'.bitwidth = bw ∧ w'.signed = sg ∧ w'.cls = cls ∧
    w'.id = b.nextWireId ∧
    b'.logic = b.logic ∧ b'.wires = b.wires ++ [w'] ∧
    b'.nextWireId = b.nextWireId + 1 ∧
    b'.constvar = b.constvar ∧ b'.memid = b.memid ∧
    b.tempvar ≤ b'.tempvar := by
  unfold mkWire Block.next_tempvar_name Block.add_wirevector at h
  cases nm <;>
  · dsimp only at h
    split at h
    · simp at h
    · split at h
      · simp at h
      · split at h
        · rename_i b2 heq
          simp only [Prod.mk.injEq, Except.ok.injEq] at h
          obtain ⟨rfl, rfl⟩ := h
          split at heq
          · simp at heq
          · simp only [Except.ok.injEq] at heq
            subst heq
            simp
        · simp at h

/-- What a successful select-node construction guarantees: the fresh
output wire is as wide as the selected positions, carries a fresh
identity, and exactly the one select node is appended. -/
theorem selectTail_ok {w : Wire} {sel : List Nat} {b : Block}
    {w' : Wire} {b' : Block}
    (h : selectTail w sel b = (.ok w', b')) :
    w'.bitwidth = some sel.length ∧ w'.id = b.nextWireId ∧
    b'.logic = b.logic ++ [⟨some .select, .sel sel, [w], [w']⟩] ∧
    b'.nextWireId = b.nextWireId + 1 ∧
    b'.constvar = b.constvar ∧ b'.memid = b.memid := by
  unfold selectTail at h
  split at h
  · simp at h
  · rename_i outwire b1 heq
    simp only [Prod.mk.injEq, Except.ok.injEq] at h
    obtain ⟨rfl, rfl⟩ := h
    obtain ⟨hbw, -, -, hid, hlog, -, hnid, hcv, hmid, -⟩ := mkWire_ok heq
    refine ⟨hbw, hid, ?_, ?_, ?_, ?_⟩ <;>
      simp [Block.add_net, hlog, hnid, hcv, hmid]

/-- A successful integer indexing resolves the index through `pyIndex`
and builds the one-position select node. -/
theorem getitemInt_ok {w : Wire} {len : Nat} {i : Int} {b : Block}
    {w' : Wire} {b' : Block}
    (hw : w.bitwidth = some len)
    (h : w.getitemInt i b = (.ok w', b')) :
    ∃ j, pyIndex len i = some j ∧ selectTail w [j] b = (.ok w', b') := by
  unfold Wire.getitemInt at h
  rw [hw] at h
  split at h
  next heq => simp at h
  next j heq =>
    obtain rfl : len = j := by injection heq
    split at h
    · simp at h
    · rename_i j2 heq2
      exact ⟨j2, heq2, h⟩

/-- The slice `[:stop]` builds the select node over the first `stop`
positions of `range(bitwidth)`. -/
theorem getitemSliceTo_ok {w : Wire} {len stop : Nat} {b : Block}
    {w' : Wire} {b' : Block}
    (hw : w.bitwidth = some len)
    (h : w.getitemSliceTo stop b = (.ok w', b')) :
    selectTail w ((List.range len).take stop) b = (.ok w', b') := by
  unfold Wire.getitemSliceTo at h
  rw [hw] at h
  exact h

/-- A successful two-wire `concat` allocates a fresh wire of the summed
widths and appends exactly the one concat node. -/
theorem concatList_pair_ok {x y : Wire} {p q : Nat} {b : Block}
    {r : Wire} {b' : Block}
    (hx : x.bitwidth = some p) (hy : y.bitwidth = some q)
    (h : concatList [x, y] b = (.ok r, b')) :
    r.bitwidth = some (p + q) ∧ r.id = b.nextWireId ∧
    b'.logic = b.logic ++ [⟨some .concat, .noneP, [x, y], [r]⟩] ∧
    b'.nextWireId = b.nextWireId + 1 ∧
    b'.constvar = b.constvar ∧ b'.memid = b.memid := by
  have hl : wireLens [x, y] = .ok [p, q] := by
    simp [wireLens, pyLen, hx, hy]
  simp only [concatList, hl] at h
  split at h
  · simp at h
  · rename_i outwire b1 heq
    simp only [Prod.mk.injEq, Except.ok.injEq] at h
    obtain ⟨rfl, rfl⟩ := h
    obtain ⟨hbw, -, -, hid, hlog, -, hnid, hcv, hmid, -⟩ := mkWire_ok heq
    refine ⟨by simpa using hbw, hid, ?_, ?_, ?_, ?_⟩ <;>
      simp [Block.add_net, hlog, hnid, hcv, hmid]

/-- What a successful `Const.__init__` guarantees: the recorded value,
the computed width (explicit or inferred), the fit check having passed,
and the netlist being untouched. -/
theorem constInit_ok {v : Int} {bw : Option Nat} {b : Block}
    {c : Wire} {b' : Block}
    (h : constInit v bw b = (.ok c, b')) :
    c.cls = .const v.toNat ∧ c.signed = false ∧
    c.bitwidth = some (match bw with
      | some u => u
      | none => inferredWidth v) ∧
    ¬v < 0 ∧
    v.toNat >>> (match bw with
      | some u => u
      | none => inferredWidth v) = 0 ∧
    b'.logic = b.logic ∧ b'.wires = b.wires ++ [c] ∧
    b'.constvar = b.constvar + 1 ∧ b'.memid = b.memid ∧
    b'.nextWireId = b.nextWireId + 1 ∧ c.id = b.nextWireId ∧
    b.tempvar ≤ b'.tempvar := by
  unfold constInit Block.next_constvar_name at h
  dsimp only at h
  split at h
  · simp at h
  · split at h
    · simp at h
    · rename_i hneg hfit
      obtain ⟨hbw, -, hcls, hid, hlog, hws, hnid, hcv, hmid, htv⟩ :=
        mkWire_ok h
      cases bw <;>
        exact ⟨hcls, by
          obtain ⟨-, hsg, -⟩ := mkWire_ok h
          exact hsg, hbw, hneg, by simpa using hfit, hlog, hws,
          by simpa using hcv, by simpa using hmid, by simpa using hnid,
          by simpa using hid, htv⟩

/-- Python `allindex[-1]` over `range(k)` succeeds exactly on non-empty
ranges and yields the top position `k - 1`. -/
theorem pyIndex_neg_one {k j : Nat} (h : pyIndex k (-1) = some j) :
    0 < k ∧ j = k - 1 := by
  unfold pyIndex at h
  dsimp only at h
  split at h
  · split at h
    · rename_i hc hrange
      injection h with h
      constructor <;> omega
    · simp at h
  · rename_i hc
    norm_num at hc

/-- Case analysis of a successful `_extend_with_bit`: same width is the
identity on wire and block; growing appends the replicating select node
and the concat node and yields the requested width. -/
theorem extendWithBit_ok {w : Wire} {k t : Nat} {eb : Wire} {b : Block}
    {r : Wire} {b' : Block}
    (hw : w.bitwidth = some k)
    (h : w.extendWithBit t eb b = (.ok r, b')) :
    (t = k ∧ r = w ∧ b' = b) ∨
    (k < t ∧ r.bitwidth = some t ∧
      ∃ ev, ev.bitwidth = some (t - k) ∧
        b'.logic = b.logic ++
          [⟨some .select, .sel (List.replicate (t - k) 0), [eb], [ev]⟩,
           ⟨some .concat, .noneP, [ev, w], [r]⟩]) := by
  unfold Wire.extendWithBit at h
  rw [hw] at h
  split at h
  next heq => simp at h
  next j heq =>
    obtain rfl : k = j := by injection heq
    split at h
    · rename_i hteq
      simp only [Prod.mk.injEq, Except.ok.injEq] at h
      exact .inl ⟨hteq, h.1.symm, h.2.symm⟩
    · split at h
      · simp at h
      · rename_i hne hnlt
        have hkt : k < t := by omega
        dsimp only at h
        split at h
        · simp at h
        · rename_i ev b1 heq2
          obtain ⟨hevw, -, -, -, hlog1, -⟩ := mkWire_ok heq2
          obtain ⟨hrw, -, hlog2, -⟩ :=
            concatList_pair_ok hevw hw h
          refine .inr ⟨hkt, ?_, ev, hevw, ?_⟩
          · rw [hrw]
            congr 1
            omega
          · rw [hlog2]
            simp [Block.add_net, hlog1]

/-- Case analysis of a successful `zero_extended`: the fresh one-bit
zero constant never touches the netlist, so same width leaves the
netlist unchanged, and growing appends exactly the two extension
nodes with the constant as the replicated bit. -/
theorem zero_extended_ok {w : Wire} {k t : Nat} {b : Block}
    {r : Wire} {b' : Block}
    (hw : w.bitwidth = some k)
    (h : w.zero_extended t b = (.ok r, b')) :
    (t = k ∧ r = w ∧ b'.logic = b.logic) ∨
    (k < t ∧ r.bitwidth = some t ∧
      ∃ z ev, z.cls = .const 0 ∧ z.bitwidth = some 1 ∧
        ev.bitwidth = some (t - k) ∧
        b'.logic = b.logic ++
          [⟨some .select, .sel (List.replicate (t - k) 0), [z], [ev]⟩,
           ⟨some .concat, .noneP, [ev, w], [r]⟩]) := by
  unfold Wire.zero_extended at h
  split at h
  · simp at h
  · rename_i z b1 heq
    obtain ⟨hzc, -, hzw, -, -, hlog1, -⟩ := constInit_ok heq
    rcases extendWithBit_ok hw h with ⟨ht, rfl, rfl⟩ | ⟨hkt, hrw, ev, hevw, hlog2⟩
    · exact .inl ⟨ht, rfl, hlog1⟩
    · exact .inr ⟨hkt, hrw, z, ev, by simpa using hzc, by simpa using hzw,
        hevw, by rw [hlog2, hlog1]⟩

/-- Case analysis of a successful `sign_extended`: the sign-bit select
node is appended first in every case (even when the widths already
agree), then the extension proceeds as in `_extend_with_bit`. -/
theorem sign_extended_ok {w : Wire} {k t : Nat} {b : Block}
    {r : Wire} {b' : Block}
    (hw : w.bitwidth = some k)
    (h : w.sign_extended t b = (.ok r, b')) :
    0 < k ∧
    ((t = k ∧ r = w ∧ ∃ sb, sb.bitwidth = some 1 ∧
        b'.logic = b.logic ++ [⟨some .select, .sel [k - 1], [w], [sb]⟩]) ∨
     (k < t ∧ r.bitwidth = some t ∧
       ∃ sb ev, sb.bitwidth = some 1 ∧ ev.bitwidth = some (t - k) ∧
         b'.logic = b.logic ++
           [⟨some .select, .sel [k - 1], [w], [sb]⟩,
            ⟨some .select, .sel (List.replicate (t - k) 0), [sb], [ev]⟩,
            ⟨some .concat, .noneP, [ev, w], [r]⟩])) := by
  unfold Wire.sign_extended at h
  split at h
  · simp at h
  · rename_i sb b1 heq
    obtain ⟨j, hj, hsel⟩ := getitemInt_ok hw heq
    obtain ⟨hk, rfl⟩ := pyIndex_neg_one hj
    obtain ⟨hsbw, -, hlog1, -⟩ := selectTail_ok hsel
    refine ⟨hk, ?_⟩
    rcases extendWithBit_ok hw h with ⟨ht, rfl, rfl⟩ | ⟨hkt, hrw, ev, hevw, hlog2⟩
    · exact .inl ⟨ht, rfl, sb, by simpa using hsbw, hlog1⟩
    · exact .inr ⟨hkt, hrw, sb, ev, by simpa using hsbw, hevw,
        by rw [hlog2, hlog1]; simp⟩

/-- A successful `extended`, regardless of the wire's extension rule,
returns a wire of exactly the requested width. -/
theorem extended_ok_width {w : Wire} {k t : Nat} {b : Block}
    {r : Wire} {b' : Block}
    (hw : w.bitwidth = some k)
    (h : w.extended t b = (.ok r, b')) : r.bitwidth = some t := by
  unfold Wire.extended at h
  split at h
  · rcases (sign_extended_ok hw h).2 with ⟨ht, rfl, -⟩ | ⟨-, hrw, -⟩
    · rw [hw, ht]
    · exact hrw
  · rcases zero_extended_ok hw h with ⟨ht, rfl, -⟩ | ⟨-, hrw, -⟩
    · rw [hw, ht]
    · exact hrw

/-- A successful `extended` only ever appends nodes, and none of them
is a connect-kind node. -/
theorem extended_ok_logic {w : Wire} {k t : Nat} {b : Block}
    {r : Wire} {b' : Block}
    (hw : w.bitwidth = some k)
    (h : w.extended t b = (.ok r, b')) :
    ∃ suf, b'.logic = b.logic ++ suf ∧
      ∀ nd ∈ suf, nd.op ≠ none := by
  unfold Wire.extended at h
  split at h
  · rcases (sign_extended_ok hw h).2 with
      ⟨-, -, sb, -, hlog⟩ | ⟨-, -, sb, ev, -, -, hlog⟩
    · exact ⟨_, hlog, by simp⟩
    · exact ⟨_, hlog, by simp⟩
  · rcases zero_extended_ok hw h with
      ⟨-, -, hlog⟩ | ⟨-, -, z, ev, -, -, -, hlog⟩
    · exact ⟨[], by simpa using hlog, by simp⟩
    · exact ⟨_, hlog, by simp⟩

/-- Extension by `_extend_with_bit` to a strictly smaller width always fails,
leaving the block exactly as it received it. -/
theorem extendWithBit_shrink {w : Wire} {k t : Nat} {eb : Wire}
    {b : Block} (hw : w.bitwidth = some k) (ht : t < k) :
    w.extendWithBit t eb b =
      (.error "zero_extended cannot reduce the number of bits", b) := by
  unfold Wire.extendWithBit
  rw [hw]
  dsimp only
  rw [if_neg (by omega), if_pos ht]

/-- Full characterization of a successful base-class connect: the
target is returned, and one connect node is appended whose argument is
the source truncated by a low-order select (wider source), the source
extended by its own rule (narrower source), or the source itself
(matching widths). -/
theorem ilshiftBase_ok {self other : Wire} {t s : Nat} {b : Block}
    {r : Wire} {b' : Block}
    (ht : self.bitwidth = some t) (hs : other.bitwidth = some s)
    (h : Wire.ilshiftBase self other b = (.ok r, b')) :
    r = self ∧
    ∃ arg bmid,
      b'.logic = bmid.logic ++ [⟨none, .noneP, [arg], [self]⟩] ∧
      ((t < s ∧ arg.bitwidth = some t ∧
          bmid.logic = b.logic ++
            [⟨some .select, .sel (List.range t), [other], [arg]⟩]) ∨
       (s < t ∧ arg.bitwidth = some t ∧
          other.extended t b = (.ok arg, bmid) ∧
          ∃ suf, bmid.logic = b.logic ++ suf ∧
            ∀ nd ∈ suf, nd.op ≠ none) ∨
       (s = t ∧ arg = other ∧ bmid = b)) := by
  unfold Wire.ilshiftBase at h
  rw [ht, hs] at h
  dsimp only at h
  split at h
  next heq => simp at h
  next o2 b1 heq =>
    simp only [Prod.mk.injEq, Except.ok.injEq] at h
    obtain ⟨rfl, rfl⟩ := h
    refine ⟨rfl, o2, b1, by simp [Block.add_net], ?_⟩
    split at heq
    · rename_i hts
      obtain ⟨hbw, -, hlog, -⟩ :=
        selectTail_ok (getitemSliceTo_ok hs heq)
      have hmin : min t s = t := by omega
      refine .inl ⟨hts, ?_, ?_⟩
      · rw [hbw, List.length_take, List.length_range, hmin]
      · rw [hlog, List.take_range, hmin]
    · split at heq
      · rename_i hts hst
        obtain ⟨suf, hlog, hsuf⟩ := extended_ok_logic hs heq
        exact .inr (.inl ⟨hst, extended_ok_width hs heq, heq,
          suf, hlog, hsuf⟩)
      · rename_i hts hst
        simp only [Prod.mk.injEq, Except.ok.injEq] at heq
        obtain ⟨rfl, rfl⟩ := heq
        exact .inr (.inr ⟨by omega, rfl, rfl⟩)

/-- A successful base-class connect only ever appends nodes to the
netlist. -/
theorem ilshiftBase_ok_logic {a v : Wire} {bb : Block} {u : Wire}
    {bb' : Block}
    (h : Wire.ilshiftBase a v bb = (.ok u, bb')) :
    ∃ suf, bb'.logic = bb.logic ++ suf := by
  unfold Wire.ilshiftBase at h
  split at h
  · simp at h
  · rename_i t ht
    split at h
    · simp at h
    · rename_i s hs
      dsimp only at h
      split at h
      next heq => simp at h
      next o2 b1 heq =>
        simp only [Prod.mk.injEq, Except.ok.injEq] at h
        obtain ⟨rfl, rfl⟩ := h
        split at heq
        · obtain ⟨-, -, hlog, -⟩ :=
            selectTail_ok (getitemSliceTo_ok hs heq)
          exact ⟨[⟨some .select, .sel (List.take t (List.range s)),
              [v], [o2]⟩, ⟨none, .noneP, [o2], [a]⟩],
            by simp [Block.add_net, hlog]⟩
        · split at heq
          · obtain ⟨suf, hlog, -⟩ := extended_ok_logic hs heq
            exact ⟨suf ++ [⟨none, .noneP, [o2], [a]⟩],
              by simp [Block.add_net, hlog]⟩
          · simp only [Prod.mk.injEq, Except.ok.injEq] at heq
            obtain ⟨rfl, rfl⟩ := heq
            exact ⟨[⟨none, .noneP, [v], [a]⟩],
              by simp [Block.add_net]⟩

/-- A successful Python `len()` exposes the wire's bitwidth. -/
theorem pyLen_ok {w : Wire} {n : Nat} (h : pyLen w = .ok n) :
    w.bitwidth = some n := by
  unfold pyLen at h
  split at h
  next m heq =>
    obtain rfl : m = n := by injection h
    exact heq
  next heq => simp at h

/-- A successful `_extend_with_bit` never decreases the wire-identity
counter. -/
theorem extendWithBit_ok_nextid {w : Wire} {k t : Nat} {eb : Wire}
    {b : Block} {r : Wire} {b' : Block}
    (hw : w.bitwidth = some k)
    (h : w.extendWithBit t eb b = (.ok r, b')) :
    b.nextWireId ≤ b'.nextWireId := by
  unfold Wire.extendWithBit at h
  rw [hw] at h
  split at h
  next heq => simp at h
  next j heq =>
    obtain rfl : k = j := by injection heq
    split at h
    · simp only [Prod.mk.injEq, Except.ok.injEq] at h
      obtain ⟨-, rfl⟩ := h
      exact le_refl _
    · split at h
      · simp at h
      · rename_i hne hnlt
        dsimp only at h
        split at h
        · simp at h
        · rename_i ev b1 heq2
          obtain ⟨hevw, -, -, -, -, -, hnid1, -⟩ := mkWire_ok heq2
          obtain ⟨-, -, -, hnid2, -⟩ := concatList_pair_ok hevw hw h
          have ha : (b1.add_net ⟨some .select,
              .sel (List.replicate (t - k) 0), [eb], [ev]⟩).nextWireId =
              b1.nextWireId := rfl
          omega

/-- A successful `zero_extended` never decreases the wire-identity
counter. -/
theorem zero_extended_ok_nextid {w : Wire} {k t : Nat} {b : Block}
    {r : Wire} {b' : Block}
    (hw : w.bitwidth = some k)
    (h : w.zero_extended t b = (.ok r, b')) :
    b.nextWireId ≤ b'.nextWireId := by
  unfold Wire.zero_extended at h
  split at h
  · simp at h
  · rename_i z b1 heq
    have h1 := (constInit_ok heq).2.2.2.2.2.2.2.2.2.1
    have h2 := extendWithBit_ok_nextid hw h
    omega

/-- A successful `sign_extended` never decreases the wire-identity
counter. -/
theorem sign_extended_ok_nextid {w : Wire} {k t : Nat} {b : Block}
    {r : Wire} {b' : Block}
    (hw : w.bitwidth = some k)
    (h : w.sign_extended t b = (.ok r, b')) :
    b.nextWireId ≤ b'.nextWireId := by
  unfold Wire.sign_extended at h
  split at h
  · simp at h
  · rename_i sb b1 heq
    obtain ⟨j, hj, hsel⟩ := getitemInt_ok hw heq
    have h1 := (selectTail_ok hsel).2.2.2.1
    have h2 := extendWithBit_ok_nextid hw h
    omega

/-- A successful `extended` never decreases the wire-identity
counter. -/
theorem extended_ok_nextid {w : Wire} {k t : Nat} {b : Block}
    {r : Wire} {b' : Block}
    (hw : w.bitwidth = some k)
    (h : w.extended t b = (.ok r, b')) :
    b.nextWireId ≤ b'.nextWireId := by
  unfold Wire.extended at h
  split at h
  · exact sign_extended_ok_nextid hw h
  · exact zero_extended_ok_nextid hw h

/-- The connect-node count distributes over list append. -/
theorem countConnect_append (l1 l2 : List LogicNet) :
    countConnect (l1 ++ l2) = countConnect l1 + countConnect l2 := by
  simp [countConnect]

/-- A node list without connect nodes counts zero. -/
theorem countConnect_none {l : List LogicNet}
    (h : ∀ nd ∈ l, nd.op ≠ none) : countConnect l = 0 := by
  unfold countConnect
  rw [List.length_eq_zero, List.filter_eq_nil_iff]
  intro a ha
  simpa using h a ha

/-!
## Claim theorems
-/

/-- Claim C10: constructing any wire-vector with an explicit name whose
lower-casing is `clk` or `clock` fails with an error, and the block is
returned unchanged — the wire is never added to the netlist. -/
theorem clk_name_rejected (s : String) (bw : Option Nat) (sg : Bool)
    (cls : WireClass) (b : Block)
    (h : s.data.map Char.toLower = "clk".data ∨
         s.data.map Char.toLower = "clock".data) :
    mkWire bw (some (.user s)) sg cls b =
      (.error "Clock signals should never be explicitly instantiated",
       b) := by
  rcases h with h | h <;> simp [mkWire, isClkName, h]

/-- Witness for C10 at the concrete name `CLK`. -/
theorem clk_name_rejected_witness :
    mkWire (some 1) (some (.user "CLK")) false .plain Block.empty =
      (.error "Clock signals should never be explicitly instantiated",
       Block.empty) :=
  clk_name_rejected "CLK" (some 1) false .plain Block.empty
    (Or.inl (by decide))

/-- Claim C9: applying the connect operation `ilshift` directly to an
Input, Constant, or Register wire fails with an error whose message
names the offending wire, and the block is returned unchanged. -/
theorem forbidden_ilshift_named_error (self other : Wire) (b : Block)
    (h : self.cls = .input ∨ (∃ v, self.cls = .const v) ∨
         self.cls = .register) :
    ∃ pre post, Wire.ilshift self other b =
      (.error (pre ++ self.name.render ++ post), b) := by
  rcases h with h | ⟨v, h⟩ | h
  · exact ⟨"Input, such as ",
      ", cannot have values generated internally",
      by simp [Wire.ilshift, h]⟩
  · exact ⟨"ConstWires, such as ",
      ", should never be assigned to with ilshift",
      by simp [Wire.ilshift, h]⟩
  · exact ⟨"Registers, such as ",
      ", should never be assigned to with ilshift",
      by simp [Wire.ilshift, h]⟩

/-- Witness for C9 at a concrete input wire. -/
theorem forbidden_ilshift_named_error_witness :
    ∃ pre post, Wire.ilshift win1 wsrc blkIn =
      (.error (pre ++ (WName.user "in1").render ++ post), blkIn) :=
  forbidden_ilshift_named_error win1 wsrc blkIn (Or.inl rfl)

/-- Claim C8: a constant from integer `v` with explicit width `w` fails
when `v` does not fit (`2 ^ w ≤ v`) and succeeds recording exactly `v`
(and width `w`) when it fits; with no width given, the minimal width
holding `v` is inferred. -/
theorem const_value_width_contract (v : Nat) (b : Block) :
    (∀ w, 2 ^ w ≤ v → ∃ e, (constInit v (some w) b).1 = .error e) ∧
    (∀ w c b', constInit v (some w) b = (.ok c, b') →
      v < 2 ^ w ∧ c.cls = .const v ∧ c.bitwidth = some w) ∧
    (∀ c b', constInit v none b = (.ok c, b') →
      c.bitwidth = some (inferredWidth v) ∧ c.cls = .const v ∧
      v < 2 ^ (inferredWidth v) ∧
      ∀ u, 0 < u → v < 2 ^ u → inferredWidth v ≤ u) := by
  refine ⟨?_, ?_, ?_⟩
  · intro w hle
    have hfit : ((v : Int)).toNat >>> w ≠ 0 := by
      simp only [Int.toNat_natCast, Nat.shiftRight_eq_div_pow]
      have := Nat.div_pos hle (Nat.two_pow_pos w)
      omega
    unfold constInit Block.next_constvar_name
    dsimp only
    rw [if_neg (by omega : ¬(v : Int) < 0), if_pos hfit]
    exact ⟨_, rfl⟩
  · intro w c b' h
    obtain ⟨hcls, -, hbw, -, hfit, -⟩ := constInit_ok h
    refine ⟨?_, by simpa using hcls, by simpa using hbw⟩
    simp only [Int.toNat_natCast, Nat.shiftRight_eq_div_pow] at hfit
    have h2 := Nat.two_pow_pos w
    have := Nat.div_eq_zero_iff h2 |>.mp (by simpa using hfit)
    exact this
  · intro c b' h
    obtain ⟨hcls, -, hbw, -, hfit, -⟩ := constInit_ok h
    have hiv : inferredWidth v = if v = 0 then 1 else v.log2 + 1 := by
      unfold inferredWidth
      rcases Nat.eq_zero_or_pos v with rfl | hv
      · simp
      · rw [if_neg (by omega : ¬(v : Int) ≤ 0), if_neg (by omega)]
        simp
    refine ⟨by simpa using hbw, by simpa using hcls, ?_, ?_⟩
    · rw [hiv]
      rcases Nat.eq_zero_or_pos v with rfl | hv
      · simp
      · rw [if_neg (by omega)]
        exact (Nat.log2_lt (by omega)).mp (Nat.lt_succ_self _)
    · intro u hu hvu
      rw [hiv]
      rcases Nat.eq_zero_or_pos v with rfl | hv
      · simpa using hu
      · rw [if_neg (by omega)]
        have := (Nat.log2_lt (by omega : v ≠ 0)).mpr hvu
        omega

/-- Witness for C8: value 5 fails at width 2, succeeds at width 3 with
recorded value exactly 5. -/
theorem const_value_width_contract_witness :
    (∃ e, (constInit 5 (some 2) Block.empty).1 = .error e) ∧
    5 < 2 ^ 3 ∧ c85.cls = .const 5 ∧ c85.bitwidth = some 3 :=
  ⟨(const_value_width_contract 5 Block.empty).1 2 (by decide),
   (const_value_width_contract 5 Block.empty).2.1 3 c85 _ rfl⟩

/-- Counterexample to claim C3: extending a 2-bit signed wire to the
same width 2 with `sign_extended` returns the original wire, but it is
NOT free of new nodes — one sign-bit select node is appended, so the
netlist grows by one node where the claim requires it unchanged. -/
theorem sign_extend_same_width_appends_node :
    (Wire.sign_extended wk2 2 blkK).1 = .ok wk2 ∧
    ((Wire.sign_extended wk2 2 blkK).2).logic.length =
      blkK.logic.length + 1 ∧
    blkK.logic.length + 1 ≠ blkK.logic.length :=
  ⟨rfl, rfl, by decide⟩

/-- Claim C3 (amended): extension to a strictly smaller width fails;
extension to the same width returns the original wire, the extension
step itself appending no node — though `sign_extended` first appends
one select node to extract the sign bit; extension to a larger width
allocates `n - k` extra bits driven by a fresh zero constant
(`zero_extended`, the default `extended` of unsigned wires) or by
copies of the original sign bit (`sign_extended`, the `extended` of
signed variants) and concatenates them above the original bits. -/
theorem extension_contract (w : Wire) (k n : Nat) (b : Block)
    (hw : w.bitwidth = some k) :
    ((w.signed = false →
        ∀ t bb, Wire.extended w t bb = w.zero_extended t bb) ∧
     (w.signed = true →
        ∀ t bb, Wire.extended w t bb = w.sign_extended t bb)) ∧
    (n < k →
      (∃ e, (w.zero_extended n b).1 = .error e) ∧
      (∃ e, (w.sign_extended n b).1 = .error e)) ∧
    (∀ r b', n = k → w.zero_extended n b = (.ok r, b') →
      r = w ∧ b'.logic = b.logic) ∧
    (∀ r b', n = k → w.sign_extended n b = (.ok r, b') →
      r = w ∧ ∃ sb, sb.bitwidth = some 1 ∧
        b'.logic = b.logic ++
          [⟨some .select, .sel [k - 1], [w], [sb]⟩]) ∧
    (∀ r b', k < n → w.zero_extended n b = (.ok r, b') →
      r.bitwidth = some n ∧ ∃ z ev,
        z.cls = .const 0 ∧ z.bitwidth = some 1 ∧
        ev.bitwidth = some (n - k) ∧
        b'.logic = b.logic ++
          [⟨some .select, .sel (List.replicate (n - k) 0), [z], [ev]⟩,
           ⟨some .concat, .noneP, [ev, w], [r]⟩]) ∧
    (∀ r b', k < n → w.sign_extended n b = (.ok r, b') →
      r.bitwidth = some n ∧ ∃ sb ev,
        sb.bitwidth = some 1 ∧ ev.bitwidth = some (n - k) ∧
        b'.logic = b.logic ++
          [⟨some .select, .sel [k - 1], [w], [sb]⟩,
           ⟨some .select, .sel (List.replicate (n - k) 0), [sb], [ev]⟩,
           ⟨some .concat, .noneP, [ev, w], [r]⟩]) := by
  refine ⟨⟨?_, ?_⟩, ?_, ?_, ?_, ?_, ?_⟩
  · intro hsg t bb
    unfold Wire.extended
    rw [hsg]
    simp
  · intro hsg t bb
    unfold Wire.extended
    rw [hsg]
    simp
  · intro hnk
    constructor
    · unfold Wire.zero_extended
      rcases hc : constInit 0 (some 1) b with ⟨res, b1⟩
      cases res with
      | error e => exact ⟨e, rfl⟩
      | ok z =>
          refine ⟨"zero_extended cannot reduce the number of bits", ?_⟩
          show (w.extendWithBit n z b1).1 = _
          rw [extendWithBit_shrink hw hnk]
    · unfold Wire.sign_extended
      rcases hc : w.getitemInt (-1) b with ⟨res, b1⟩
      cases res with
      | error e => exact ⟨e, rfl⟩
      | ok sb =>
          refine ⟨"zero_extended cannot reduce the number of bits", ?_⟩
          show (w.extendWithBit n sb b1).1 = _
          rw [extendWithBit_shrink hw hnk]
  · intro r b' hnk h
    subst hnk
    rcases zero_extended_ok hw h with ⟨-, rfl, hlog⟩ | ⟨hkn, -⟩
    · exact ⟨rfl, hlog⟩
    · omega
  · intro r b' hnk h
    subst hnk
    obtain ⟨hk, hcase⟩ := sign_extended_ok hw h
    rcases hcase with ⟨-, rfl, sb, hsb, hlog⟩ | ⟨hkn, -⟩
    · exact ⟨rfl, sb, hsb, hlog⟩
    · omega
  · intro r b' hkn h
    rcases zero_extended_ok hw h with ⟨hnk, -⟩ | ⟨-, hrw, z, ev, hz, hz1, hev, hlog⟩
    · omega
    · exact ⟨hrw, z, ev, hz, hz1, hev, hlog⟩
  · intro r b' hkn h
    obtain ⟨hk, hcase⟩ := sign_extended_ok hw h
    rcases hcase with ⟨hnk, -⟩ | ⟨-, hrw, sb, ev, hsb, hev, hlog⟩
    · omega
    · exact ⟨hrw, sb, ev, hsb, hev, hlog⟩

/-- Witness for C3: the 2-bit wire `wk2` cannot be extended down to
width 1 by either extension operation. -/
theorem extension_contract_witness :
    (∃ e, (Wire.zero_extended wk2 1 blkK).1 = .error e) ∧
    (∃ e, (Wire.sign_extended wk2 1 blkK).1 = .error e) :=
  (extension_contract wk2 2 1 blkK rfl).2.1 (by decide)

/-- Counterexample to claim C4: after a genuine first binding of the
register `regR` to `wv1`, a second binding attempt — binding the next
surface to the internal next-wire `nR` itself — returns successfully
instead of failing with an error. -/
theorem second_binding_of_next_wire_silent :
    Register.setNext regR wv1 blkR = (.ok regR1, blkR1) ∧
    regR1.reg_in = some nR ∧
    Register.setNext regR1 nR blkR1 = (.ok regR1, blkR1) :=
  ⟨rfl, rfl, rfl⟩

/-- Claim C4 (amended): the first binding of a register's next surface
succeeds and creates the register node; every second binding attempt
fails with an error leaving the binding and the netlist unaltered —
except binding the internal next-wire itself again, which returns
silently without changing anything. -/
theorem register_next_single_binding (r : Register) (value : Wire)
    (b : Block) :
    (∀ n, r.reg_in = some n → value ≠ n →
      Register.setNext r value b = (.error "PyrtlError", b)) ∧
    (∀ n, r.reg_in = some n →
      Register.setNext r n b = (.ok r, b)) ∧
    (∀ r' b', r.reg_in = none →
      Register.setNext r value b = (.ok r', b') →
      ∃ n, r'.reg_in = some n ∧ r'.wire = r.wire ∧
        (⟨some .reg, .noneP, [n], [r.wire]⟩ : LogicNet) ∈ b'.logic) := by
  refine ⟨?_, ?_, ?_⟩
  · intro n hn hne
    unfold Register.setNext
    rw [hn]
    dsimp only
    rw [if_neg (fun hh => hne hh.symm)]
  · intro n hn
    unfold Register.setNext
    rw [hn]
    dsimp only
    rw [if_pos rfl]
  · intro r' b' hn h
    unfold Register.setNext at h
    rw [hn] at h
    dsimp only at h
    split at h
    next heq => simp at h
    next nw r1 b1 heq =>
      unfold Register.makereg at heq
      rw [hn] at heq
      dsimp only at heq
      split at heq
      · simp at heq
      · rename_i nwire b2 heq2
        simp only [Prod.mk.injEq, Except.ok.injEq] at heq
        obtain ⟨⟨rfl, rfl⟩, rfl⟩ := heq
        split at h
        · simp at h
        · rename_i u b3 heq3
          simp only [Prod.mk.injEq, Except.ok.injEq] at h
          obtain ⟨rfl, rfl⟩ := h
          refine ⟨nwire, rfl, rfl, ?_⟩
          have hcls : nwire.cls = .plain := (mkWire_ok heq2).2.2.1
          have hb2 : (b2.add_net
              ⟨some .reg, .noneP, [nwire], [r.wire]⟩).logic =
              b2.logic ++ [⟨some .reg, .noneP, [nwire], [r.wire]⟩] := rfl
          have hbase : Wire.ilshiftBase nwire value
              (b2.add_net ⟨some .reg, .noneP, [nwire], [r.wire]⟩) =
              (.ok u, b3) := by
            unfold Wire.ilshift at heq3
            rw [hcls] at heq3
            exact heq3
          obtain ⟨suf, hlog⟩ := ilshiftBase_ok_logic hbase
          rw [hlog, hb2]
          simp

/-- Witness for C4: with `regR1` already bound (its `reg_in` is the
next-wire `nR`), a second binding to the distinct wire `wv1` fails and
leaves the block unchanged. -/
theorem register_next_single_binding_witness :
    Register.setNext regR1 wv1 blkR1 = (.error "PyrtlError", blkR1) :=
  (register_next_single_binding regR1 wv1 blkR1).1 nR rfl (by decide)

/-- Counterexample to claim C1: multiplying a 1-bit by a 2-bit operand
allocates a result wire of width 4, not the claimed operand-width sum
1 + 2 = 3. -/
theorem mul_width_not_operand_sum :
    wa1.bitwidth = some 1 ∧ wb2.bitwidth = some 2 ∧
    (Wire.logicop wa1 wb2 .mul blkAB).1 = .ok c1s ∧
    c1s.bitwidth ≠ some (1 + 2) :=
  ⟨rfl, rfl, rfl, by decide⟩

/-- Claim C1 (amended): the result wire of a multiply has width
`2 * max n m` — the operand-width sum only after the narrower operand
is extended, hence `n + m` exactly when `n = m` — and every product of
operands in range still fits that width. -/
theorem mul_width_twice_max (a b : Wire) (n m : Nat) (blk : Block)
    (s : Wire) (blk' : Block)
    (ha : a.bitwidth = some n) (hb : b.bitwidth = some m)
    (h : Wire.logicop a b .mul blk = (.ok s, blk')) :
    s.bitwidth = some (2 * max n m) ∧
    ∀ x y, x < 2 ^ n → y < 2 ^ m → x * y < 2 ^ (2 * max n m) := by
  have harith : ∀ x y, x < 2 ^ n → y < 2 ^ m →
      x * y < 2 ^ (2 * max n m) := by
    intro x y hx hy
    calc x * y < 2 ^ n * 2 ^ m := Nat.mul_lt_mul'' hx hy
    _ = 2 ^ (n + m) := (pow_add 2 n m).symm
    _ ≤ 2 ^ (2 * max n m) := Nat.pow_le_pow_right (by norm_num)
        (by rcases Nat.le_total n m with hle | hle
            · rw [Nat.max_eq_right hle]; omega
            · rw [Nat.max_eq_left hle]; omega)
  refine ⟨?_, harith⟩
  have hpa : pyLen a = .ok n := by simp [pyLen, ha]
  have hpb : pyLen b = .ok m := by simp [pyLen, hb]
  unfold Wire.logicop at h
  rw [hpa, hpb] at h
  dsimp only at h
  split at h
  next heq => simp at h
  next a1 b1 blk1 heq =>
    have hwid : a1.bitwidth = some (max n m) ∧ b1.bitwidth = some (max n m) ∨
        a1.bitwidth = some n ∧ b1.bitwidth = some m ∧ n = m := by
      split at heq
      · split at heq
        · simp at heq
        · rename_i hnm a2 blk2 heq2
          simp only [Prod.mk.injEq, Except.ok.injEq] at heq
          obtain ⟨⟨rfl, rfl⟩, rfl⟩ := heq
          exact .inl ⟨by rw [extended_ok_width ha heq2]; congr 1; omega,
            by rw [hb]; congr 1; omega⟩
      · split at heq
        · split at heq
          · simp at heq
          · rename_i hnm hmn b2 blk2 heq2
            simp only [Prod.mk.injEq, Except.ok.injEq] at heq
            obtain ⟨⟨rfl, rfl⟩, rfl⟩ := heq
            exact .inl ⟨by rw [ha]; congr 1; omega,
              by rw [extended_ok_width hb heq2]; congr 1; omega⟩
        · rename_i hnm hmn
          simp only [Prod.mk.injEq, Except.ok.injEq] at heq
          obtain ⟨⟨rfl, rfl⟩, rfl⟩ := heq
          exact .inr ⟨ha, hb, by omega⟩
    rcases hwid with ⟨hwa, -⟩ | ⟨hwa, -, hnm⟩
    · have hp1 : pyLen a1 = .ok (max n m) := by simp [pyLen, hwa]
      rw [hp1] at h
      dsimp only at h
      split at h
      · simp at h
      · rename_i sw blk2 heq2
        simp only [Prod.mk.injEq, Except.ok.injEq] at h
        obtain ⟨rfl, rfl⟩ := h
        rw [(mkWire_ok heq2).1]
        simp only [Option.some.injEq]
        simp
        omega
    · have hp1 : pyLen a1 = .ok n := by simp [pyLen, hwa]
      rw [hp1] at h
      dsimp only at h
      split at h
      · simp at h
      · rename_i sw blk2 heq2
        simp only [Prod.mk.injEq, Except.ok.injEq] at h
        obtain ⟨rfl, rfl⟩ := h
        rw [(mkWire_ok heq2).1]
        simp only [Option.some.injEq]
        simp
        subst hnm
        simp [Nat.max_self]
        omega

/-- Witness for C1 at widths 1 and 2: the result width is
`2 * max 1 2 = 4` and the bound holds at `x = 1, y = 3`. -/
theorem mul_width_twice_max_witness :
    c1s.bitwidth = some (2 * max 1 2) ∧
    1 * 3 < 2 ^ (2 * max 1 2) :=
  ⟨(mul_width_twice_max wa1 wb2 1 2 blkAB c1s
      ((Wire.logicop wa1 wb2 .mul blkAB).2) rfl rfl rfl).1,
   (mul_width_twice_max wa1 wb2 1 2 blkAB c1s
      ((Wire.logicop wa1 wb2 .mul blkAB).2) rfl rfl rfl).2
     1 3 (by decide) (by decide)⟩

/-- Counterexample to claim C2: connecting the 1-bit SIGNED source
`ws1` into the 2-bit unsigned target `wt2` does not behave as the
claimed target-rule connect (`ilshiftTargetRule`, which would
zero-extend since the target is unsigned): the run differs, because the
code sign-extends per the SOURCE's rule, appending a select node that
extracts the source's sign bit. -/
theorem connect_uses_source_rule_not_target :
    Wire.ilshiftBase wt2 ws1 blkTS ≠ ilshiftTargetRule wt2 ws1 blkTS ∧
    wt2.signed = false ∧ ws1.signed = true ∧
    (⟨some .select, .sel [0], [ws1],
      [⟨2, .temp 0, some 1, false, .plain⟩]⟩ : LogicNet) ∈
      (Wire.ilshiftBase wt2 ws1 blkTS).2.logic := by
  refine ⟨?_, rfl, rfl, ?_⟩
  · intro heq
    have h2 : (Wire.ilshiftBase wt2 ws1 blkTS).2.constvar = 0 := rfl
    have h3 : (ilshiftTargetRule wt2 ws1 blkTS).2.constvar = 1 := rfl
    rw [heq, h3] at h2
    exact Nat.one_ne_zero h2
  · decide

/-- Claim C2 (amended): a successful connect returns the target and
appends exactly one connect-kind node; a wider source is first
truncated to the target's low-order bits by a select over positions
`0..t-1`; a narrower source is first extended to the target's width per
the SOURCE's extension rule (`extended`); matching widths connect the
source directly. -/
theorem connect_truncate_extend_one_node (self other : Wire)
    (t s : Nat) (b : Block) (r : Wire) (b' : Block)
    (ht : self.bitwidth = some t) (hs : other.bitwidth = some s)
    (h : Wire.ilshiftBase self other b = (.ok r, b')) :
    r = self ∧
    countConnect b'.logic = countConnect b.logic + 1 ∧
    ∃ arg bmid,
      b'.logic = bmid.logic ++ [⟨none, .noneP, [arg], [self]⟩] ∧
      ((t < s ∧ arg.bitwidth = some t ∧
          bmid.logic = b.logic ++
            [⟨some .select, .sel (List.range t), [other], [arg]⟩]) ∨
       (s < t ∧ arg.bitwidth = some t ∧
          other.extended t b = (.ok arg, bmid)) ∨
       (s = t ∧ arg = other ∧ bmid = b)) := by
  obtain ⟨rfl, arg, bmid, hlog, hcase⟩ := ilshiftBase_ok ht hs h
  refine ⟨rfl, ?_, arg, bmid, hlog, ?_⟩
  · rw [hlog, countConnect_append]
    rcases hcase with ⟨-, -, hmid⟩ | ⟨-, -, -, suf, hmid, hsuf⟩ |
        ⟨-, -, rfl⟩
    · rw [hmid, countConnect_append]
      simp [countConnect]
    · rw [hmid, countConnect_append, countConnect_none hsuf]
      simp [countConnect]
    · simp [countConnect]
  · rcases hcase with hc | ⟨h1, h2, h3, -⟩ | hc
    · exact .inl hc
    · exact .inr (.inl ⟨h1, h2, h3⟩)
    · exact .inr (.inr hc)

/-- Witness for C2 at the truncation case: connecting the 2-bit source
`wb2` into the 1-bit target `wa1` appends exactly one connect node. -/
theorem connect_truncate_extend_one_node_witness :
    countConnect (Wire.ilshiftBase wa1 wb2 blkAB).2.logic =
      countConnect blkAB.logic + 1 :=
  (connect_truncate_extend_one_node wa1 wb2 1 2 blkAB wa1
    ((Wire.ilshiftBase wa1 wb2 blkAB).2) rfl rfl rfl).2.1

/-- Claim C7: for and/or/xor the result width is the maximum of the
operand widths, for add/sub that maximum plus one; a narrower operand
is first extended to the wider width using its own extension rule
(`extended`: zero for unsigned, sign for signed variants) before the
node is built. -/
theorem binop_width_and_extension (a b : Wire) (n m : Nat)
    (op : BinOp) (blk : Block) (s : Wire) (blk' : Block)
    (ha : a.bitwidth = some n) (hb : b.bitwidth = some m)
    (hop : op = .band ∨ op = .bor ∨ op = .bxor ∨ op = .add ∨
      op = .sub)
    (h : Wire.logicop a b op blk = (.ok s, blk')) :
    (∀ (w : Wire) (u : Nat) (bb : Block), Wire.extended w u bb =
      if w.signed then w.sign_extended u bb
      else w.zero_extended u bb) ∧
    s.bitwidth = some (if op = .add ∨ op = .sub then max n m + 1
      else max n m) ∧
    ∃ a1 b1 bmid,
      blk'.logic = bmid.logic ++
        [⟨some op.toOp, .noneP, [a1, b1], [s]⟩] ∧
      ((n < m ∧ a.extended m blk = (.ok a1, bmid) ∧ b1 = b ∧
          a1.bitwidth = some m) ∨
       (m < n ∧ b.extended n blk = (.ok b1, bmid) ∧ a1 = a ∧
          b1.bitwidth = some n) ∨
       (n = m ∧ a1 = a ∧ b1 = b ∧ bmid = blk)) := by
  have hmul : op ≠ .mul := by
    rcases hop with rfl | rfl | rfl | rfl | rfl <;> simp
  have hpa : pyLen a = .ok n := by simp [pyLen, ha]
  have hpb : pyLen b = .ok m := by simp [pyLen, hb]
  refine ⟨fun w u bb => rfl, ?_⟩
  unfold Wire.logicop at h
  rw [hpa, hpb] at h
  dsimp only at h
  simp only [if_neg hmul] at h
  split at h
  next heq => simp at h
  next a1 b1 blk1 heq =>
    split at heq
    · rename_i hnm
      split at heq
      · simp at heq
      · rename_i a2 blk2 heq2
        simp only [Prod.mk.injEq, Except.ok.injEq] at heq
        obtain ⟨⟨rfl, rfl⟩, rfl⟩ := heq
        have hw1 : a2.bitwidth = some m := extended_ok_width ha heq2
        have hp1 : pyLen a2 = .ok m := by simp [pyLen, hw1]
        rw [hp1] at h
        dsimp only at h
        split at h
        · simp at h
        · rename_i sw blk3 heq3
          simp only [Prod.mk.injEq, Except.ok.injEq] at h
          obtain ⟨rfl, rfl⟩ := h
          obtain ⟨hsw, -, -, -, hlog3, -⟩ := mkWire_ok heq3
          refine ⟨?_, a2, b, blk2, ?_, .inl ⟨hnm, heq2, rfl, hw1⟩⟩
          · rw [hsw, show max n m = m from by omega]
          · simp [Block.add_net, hlog3]
    · split at heq
      · rename_i hnm hmn
        split at heq
        · simp at heq
        · rename_i b2 blk2 heq2
          simp only [Prod.mk.injEq, Except.ok.injEq] at heq
          obtain ⟨⟨rfl, rfl⟩, rfl⟩ := heq
          have hw1 : b2.bitwidth = some n := extended_ok_width hb heq2
          rw [hpa] at h
          dsimp only at h
          split at h
          · simp at h
          · rename_i sw blk3 heq3
            simp only [Prod.mk.injEq, Except.ok.injEq] at h
            obtain ⟨rfl, rfl⟩ := h
            obtain ⟨hsw, -, -, -, hlog3, -⟩ := mkWire_ok heq3
            refine ⟨?_, a, b2, blk2, ?_,
              .inr (.inl ⟨by omega, heq2, rfl, hw1⟩)⟩
            · rw [hsw, show max n m = n from by omega]
            · simp [Block.add_net, hlog3]
      · rename_i hnm hmn
        simp only [Prod.mk.injEq, Except.ok.injEq] at heq
        obtain ⟨⟨rfl, rfl⟩, rfl⟩ := heq
        rw [hpa] at h
        dsimp only at h
        split at h
        · simp at h
        · rename_i sw blk3 heq3
          simp only [Prod.mk.injEq, Except.ok.injEq] at h
          obtain ⟨rfl, rfl⟩ := h
          obtain ⟨hsw, -, -, -, hlog3, -⟩ := mkWire_ok heq3
          refine ⟨?_, a, b, blk, ?_,
            .inr (.inr ⟨by omega, rfl, rfl, rfl⟩)⟩
          · rw [hsw, show max n m = n from by omega]
          · simp [Block.add_net, hlog3]

/-- Witness for C7 at an add of widths 1 and 2: the result width is
`max 1 2 + 1 = 3`. -/
theorem binop_width_and_extension_witness :
    c7s.bitwidth = some (if BinOp.add = BinOp.add ∨
      BinOp.add = BinOp.sub then max 1 2 + 1 else max 1 2) :=
  (binop_width_and_extension wa1 wb2 1 2 .add blkAB c7s
    ((Wire.logicop wa1 wb2 .add blkAB).2) rfl rfl
    (Or.inr (Or.inr (Or.inr (Or.inl rfl)))) rfl).2.1

/-- Counterexample to claim C6, in both of its failing regions:
`concat` applied to the single argument `wa1` returns `wa1` itself —
not a brand-new wire — and appends no logic node, leaving the block
untouched; and a bitwise and of the mismatched-width operands `wa1`
(1 bit) and `wb2` (2 bits) appends three nodes (the extension select,
the extension concat, and the and-node), not exactly one. -/
theorem concat_single_argument_identity :
    (invoke (.cat [wa1]) blkAB = (.ok wa1, blkAB) ∧
      (OpCall.cat [wa1]).operands = [wa1]) ∧
    ((invoke (.binop .band wa1 wb2) blkAB).1 = .ok c6s ∧
      (invoke (.binop .band wa1 wb2) blkAB).2.logic.length =
        blkAB.logic.length + 3 ∧
      blkAB.logic.length + 3 ≠ blkAB.logic.length + 1) :=
  ⟨⟨rfl, rfl⟩, rfl, rfl, by decide⟩

/-- Claim C6 (amended): every successful operator invocation allocates
a brand-new result wire distinct from every operand and appends exactly
one logic node of the operation's kind as the last node — preceded, for
a binary operation on mismatched operand widths, by the extension nodes
of the narrower operand, so that exactly one node in total is appended
precisely when the operand widths match — except concatenate applied to
a single argument, which returns that argument unchanged and appends
nothing. -/
theorem operator_fresh_result_one_node (c : OpCall) (blk : Block)
    (r : Wire) (blk' : Block)
    (h : invoke c blk = (.ok r, blk'))
    (hids : ∀ w ∈ c.operands, w.id < blk.nextWireId) :
    (isSingleCat c = true → c.operands = [r] ∧ blk' = blk) ∧
    (isSingleCat c = false →
      (∀ w ∈ c.operands, r.id ≠ w.id) ∧
      ∃ pre nd, blk'.logic = blk.logic ++ pre ++ [nd] ∧
        nd.op = some (opKind c) ∧ nd.dests = [r] ∧
        (widthsMatched c = true →
          blk'.logic = blk.logic ++ [nd])) := by
  cases c with
  | binop op a bb =>
      refine ⟨fun hsc => by simp [isSingleCat] at hsc, fun _ => ?_⟩
      simp only [invoke] at h
      unfold Wire.logicop at h
      split at h
      · rename_i la lb hpa hpb
        have haw : a.bitwidth = some la := pyLen_ok hpa
        have hbw : bb.bitwidth = some lb := pyLen_ok hpb
        dsimp only at h
        split at h
        next heqs => simp at h
        next aa bbb blk1 heqs =>
          split at heqs
          · rename_i hlt
            split at heqs
            · simp at heqs
            · rename_i a2 blk2 heq2
              simp only [Prod.mk.injEq, Except.ok.injEq] at heqs
              obtain ⟨⟨rfl, rfl⟩, rfl⟩ := heqs
              have hwa2 : a2.bitwidth = some lb :=
                extended_ok_width haw heq2
              have hnid : blk.nextWireId ≤ blk2.nextWireId :=
                extended_ok_nextid haw heq2
              obtain ⟨suf, hsuf, -⟩ := extended_ok_logic haw heq2
              have hp2 : pyLen a2 = .ok lb := by simp [pyLen, hwa2]
              rw [hp2] at h
              dsimp only at h
              split at h
              · simp at h
              · rename_i sw blk3 heq3
                simp only [Prod.mk.injEq, Except.ok.injEq] at h
                obtain ⟨rfl, rfl⟩ := h
                obtain ⟨-, -, -, hid3, hlog3, -⟩ := mkWire_ok heq3
                constructor
                · intro w hwmem
                  have := hids w hwmem
                  omega
                · refine ⟨suf, ⟨some op.toOp, .noneP, [a2, bb], [sw]⟩,
                    ?_, rfl, rfl, ?_⟩
                  · simp [Block.add_net, hlog3, hsuf]
                  · intro hwm
                    exfalso
                    simp only [widthsMatched] at hwm
                    rw [haw, hbw] at hwm
                    simp at hwm
                    omega
          · rename_i hnlt
            split at heqs
            · rename_i hlt
              split at heqs
              · simp at heqs
              · rename_i b2 blk2 heq2
                simp only [Prod.mk.injEq, Except.ok.injEq] at heqs
                obtain ⟨⟨rfl, rfl⟩, rfl⟩ := heqs
                have hwb2 : b2.bitwidth = some la :=
                  extended_ok_width hbw heq2
                have hnid : blk.nextWireId ≤ blk2.nextWireId :=
                  extended_ok_nextid hbw heq2
                obtain ⟨suf, hsuf, -⟩ := extended_ok_logic hbw heq2
                rw [hpa] at h
                dsimp only at h
                split at h
                · simp at h
                · rename_i sw blk3 heq3
                  simp only [Prod.mk.injEq, Except.ok.injEq] at h
                  obtain ⟨rfl, rfl⟩ := h
                  obtain ⟨-, -, -, hid3, hlog3, -⟩ := mkWire_ok heq3
                  constructor
                  · intro w hwmem
                    have := hids w hwmem
                    omega
                  · refine ⟨suf,
                      ⟨some op.toOp, .noneP, [a, b2], [sw]⟩,
                      ?_, rfl, rfl, ?_⟩
                    · simp [Block.add_net, hlog3, hsuf]
                    · intro hwm
                      exfalso
                      simp only [widthsMatched] at hwm
                      rw [haw, hbw] at hwm
                      simp at hwm
                      omega
            · rename_i hnlt2
              simp only [Prod.mk.injEq, Except.ok.injEq] at heqs
              obtain ⟨⟨rfl, rfl⟩, rfl⟩ := heqs
              rw [hpa] at h
              dsimp only at h
              split at h
              · simp at h
              · rename_i sw blk3 heq3
                simp only [Prod.mk.injEq, Except.ok.injEq] at h
                obtain ⟨rfl, rfl⟩ := h
                obtain ⟨-, -, -, hid3, hlog3, -⟩ := mkWire_ok heq3
                constructor
                · intro w hwmem
                  have := hids w hwmem
                  omega
                · refine ⟨[], ⟨some op.toOp, .noneP, [a, bb], [sw]⟩,
                    ?_, rfl, rfl, fun _ => ?_⟩
                  · simp [Block.add_net, hlog3]
                  · simp [Block.add_net, hlog3]
      · simp at h
      · simp at h
  | inv a =>
      refine ⟨fun hsc => by simp [isSingleCat] at hsc, fun _ => ?_⟩
      simp only [invoke] at h
      unfold Wire.invert at h
      split at h
      · simp at h
      · rename_i len heq
        split at h
        · simp at h
        · rename_i sw blk2 heq2
          simp only [Prod.mk.injEq, Except.ok.injEq] at h
          obtain ⟨rfl, rfl⟩ := h
          obtain ⟨-, -, -, hid, hlog, -⟩ := mkWire_ok heq2
          constructor
          · intro w hwmem
            have := hids w hwmem
            omega
          · exact ⟨[], ⟨some .bnot, .noneP, [a], [sw]⟩,
              by simp [Block.add_net, hlog], rfl, rfl,
              fun _ => by simp [Block.add_net, hlog]⟩
  | selIdx a i =>
      refine ⟨fun hsc => by simp [isSingleCat] at hsc, fun _ => ?_⟩
      simp only [invoke] at h
      unfold Wire.getitemInt at h
      split at h
      · simp at h
      · rename_i len heq
        split at h
        · simp at h
        · rename_i j heq2
          obtain ⟨-, hid, hlog, -⟩ := selectTail_ok h
          constructor
          · intro w hwmem
            have := hids w hwmem
            omega
          · exact ⟨[], ⟨some .select, .sel [j], [a], [r]⟩,
              by simpa using hlog, rfl, rfl,
              fun _ => by simpa using hlog⟩
  | cat args =>
      cases args with
      | nil => simp [invoke, concatList] at h
      | cons a rest =>
          cases rest with
          | nil =>
              refine ⟨fun _ => ?_,
                fun hsc => by simp [isSingleCat] at hsc⟩
              simp only [invoke, concatList] at h
              obtain ⟨rfl, rfl⟩ := h
              exact ⟨rfl, rfl⟩
          | cons b2 rest2 =>
              refine ⟨fun hsc => by simp [isSingleCat] at hsc,
                fun _ => ?_⟩
              simp only [invoke] at h
              unfold concatList at h
              dsimp only at h
              split at h
              · simp at h
              · rename_i lens heq
                split at h
                · simp at h
                · rename_i sw blk2 heq2
                  simp only [Prod.mk.injEq, Except.ok.injEq] at h
                  obtain ⟨rfl, rfl⟩ := h
                  obtain ⟨-, -, -, hid, hlog, -⟩ := mkWire_ok heq2
                  constructor
                  · intro w hwmem
                    have := hids w hwmem
                    omega
                  · exact ⟨[], ⟨some .concat, .noneP,
                      a :: b2 :: rest2, [sw]⟩,
                      by simp [Block.add_net, hlog], rfl, rfl,
                      fun _ => by simp [Block.add_net, hlog]⟩

/-- Witness for C6 at the bitwise and of the mismatched-width operands
`wa1` and `wb2`: the result wire is distinct from both operands. -/
theorem operator_fresh_result_one_node_witness :
    c6s.id ≠ wa1.id ∧ c6s.id ≠ wb2.id := by
  have hh := ((operator_fresh_result_one_node (.binop .band wa1 wb2)
    blkAB c6s ((invoke (.binop .band wa1 wb2) blkAB).2) rfl
    (by intro w hw; fin_cases hw <;> decide)).2 rfl).1
  exact ⟨hh wa1 (by simp [OpCall.operands]),
    hh wb2 (by simp [OpCall.operands])⟩

/-- If a predicate selects exactly one element of a list, erasing that
element leaves nothing selected. -/
theorem filter_erase_of_filter_singleton {p : LogicNet → Bool}
    {l : List LogicNet} {n : LogicNet}
    (h : l.filter p = [n]) : (l.erase n).filter p = [] := by
  induction l with
  | nil => simp at h
  | cons x xs ih =>
      rw [List.filter_cons] at h
      by_cases hx : p x
      · rw [if_pos hx] at h
        have hxn : x = n ∧ xs.filter p = [] := by simpa using h
        obtain ⟨rfl, htl⟩ := hxn
        rw [List.erase_cons_head]
        exact htl
      · rw [if_neg hx] at h
        have hpn : p n = true := by
          have hmem : n ∈ xs.filter p := by
            rw [h]
            exact List.mem_singleton_self n
          exact (List.mem_filter.mp hmem).2
        have hxn : x ≠ n := fun he => hx (by rw [he]; exact hpn)
        rw [List.erase_cons_tail (by simpa using hxn),
          List.filter_cons, if_neg hx]
        exact ih h

/-- What a successful `_update_net` guarantees: the block object caches
the re-derived node, and the netlist holds exactly that node for this
memory identity — whatever single node was there before is gone. -/
theorem updateNet_ok {m : MemBlock} {b : Block} {m2 : MemBlock}
    {b2 : Block}
    (h : m.updateNet b = (.ok m2, b2))
    (hl : m.write_addr.length = m.write_data.length)
    (hstored : ∀ n, m.stored_net = some n →
      b.logic.filter (netHasMemId m.id) = [n])
    (hnone : m.stored_net = none →
      b.logic.filter (netHasMemId m.id) = []) :
    m2 = { m with stored_net := some m.derivedNet } ∧
    b2.logic.filter (netHasMemId m.id) = [m.derivedNet] := by
  have hderived : netHasMemId m.id m.derivedNet = true := by
    simp [netHasMemId, MemBlock.derivedNet]
  unfold MemBlock.updateNet at h
  rcases hsn : m.stored_net with _ | n
  · rw [hsn] at h
    dsimp only at h
    rw [if_neg (fun hc => hc hl)] at h
    simp only [Prod.mk.injEq, Except.ok.injEq] at h
    obtain ⟨rfl, rfl⟩ := h
    exact ⟨rfl, by
      simp [Block.add_net, List.filter_append, hnone hsn, hderived]⟩
  · rw [hsn] at h
    dsimp only at h
    rw [if_neg (fun hc => hc hl)] at h
    simp only [Prod.mk.injEq, Except.ok.injEq] at h
    obtain ⟨rfl, rfl⟩ := h
    have herase := filter_erase_of_filter_singleton (hstored n hsn)
    exact ⟨rfl, by
      simp [Block.add_net, List.filter_append, herase, hderived]⟩

/-- What a successful memory read guarantees: one read port is
appended (address and fresh data wire), write ports are untouched, the
node is re-derived and it is the single live node of this identity. -/
theorem memGetitem_ok {m : MemBlock} {item : Wire} {b : Block}
    {d : Wire} {m1 : MemBlock} {b1 : Block}
    (hl : m.write_addr.length = m.write_data.length)
    (hstored : ∀ n, m.stored_net = some n →
      b.logic.filter (netHasMemId m.id) = [n])
    (hnone : m.stored_net = none →
      b.logic.filter (netHasMemId m.id) = [])
    (h : m.getitem item b = (.ok (d, m1), b1)) :
    m1.read_addr = m.read_addr ++ [item] ∧
    m1.read_data = m.read_data ++ [d] ∧
    m1.write_addr = m.write_addr ∧
    m1.write_data = m.write_data ∧
    m1.write_enable = m.write_enable ∧
    m1.id = m.id ∧
    m1.stored_net = some m1.derivedNet ∧
    b1.logic.filter (netHasMemId m.id) = [m1.derivedNet] := by
  unfold MemBlock.getitem at h
  split at h
  · simp at h
  · rename_i l heq
    split at h
    · simp at h
    · rename_i hlen
      split at h
      · simp at h
      · rename_i data bb heq2
        dsimp only at h
        split at h
        · simp at h
        · rename_i m2 b2 hequ
          simp only [Prod.mk.injEq, Except.ok.injEq] at h
          obtain ⟨⟨rfl, rfl⟩, rfl⟩ := h
          have hbblog : bb.logic = b.logic := (mkWire_ok heq2).2.2.2.2.1
          obtain ⟨rfl, hfil⟩ := updateNet_ok hequ hl
            (fun n hn => by rw [hbblog]; exact hstored n hn)
            (fun hn => by rw [hbblog]; exact hnone hn)
          exact ⟨rfl, rfl, rfl, rfl, rfl, rfl, rfl, hfil⟩

/-- What a successful memory write guarantees: one write port (address,
data, enable — a fresh always-on constant for a plain data value) is
appended, read ports are untouched, the node is re-derived and it is
the single live node of this identity. -/
theorem memSetitem_ok {m : MemBlock} {item : Wire} {val : MemInput}
    {b : Block} {m1 : MemBlock} {b1 : Block}
    (hl : m.write_addr.length = m.write_data.length)
    (hstored : ∀ n, m.stored_net = some n →
      b.logic.filter (netHasMemId m.id) = [n])
    (hnone : m.stored_net = none →
      b.logic.filter (netHasMemId m.id) = [])
    (h : m.setitem item val b = (.ok m1, b1)) :
    m1.read_addr = m.read_addr ∧
    m1.read_data = m.read_data ∧
    m1.write_addr = m.write_addr ++ [item] ∧
    m1.write_data = m.write_data ++ [val.dataOf] ∧
    (∃ en, m1.write_enable = m.write_enable ++ [en]) ∧
    m1.id = m.id ∧
    m1.stored_net = some m1.derivedNet ∧
    b1.logic.filter (netHasMemId m.id) = [m1.derivedNet] := by
  unfold MemBlock.setitem at h
  split at h
  · simp at h
  · rename_i l heq
    split at h
    · simp at h
    · rename_i hlen
      cases val with
      | plainData d0 =>
          dsimp only at h
          rcases hc : constInit 1 (some 1) b with ⟨cres, bb⟩
          rw [hc] at h
          cases cres with
          | error e => simp at h
          | ok en =>
              have hbblog : bb.logic = b.logic :=
                (constInit_ok hc).2.2.2.2.2.1
              dsimp only at h
              split at h
              · rename_i ld le hld hle
                split at h
                · simp at h
                · split at h
                  · simp at h
                  · obtain ⟨rfl, hfil⟩ := updateNet_ok h
                      (by simpa using hl)
                      (fun n hn => by rw [hbblog]; exact hstored n hn)
                      (fun hn => by rw [hbblog]; exact hnone hn)
                    exact ⟨rfl, rfl, rfl, rfl, ⟨en, rfl⟩, rfl, rfl,
                      hfil⟩
              · simp at h
              · simp at h
      | withEnable d0 en0 =>
          dsimp only at h
          split at h
          · rename_i ld le hld hle
            split at h
            · simp at h
            · split at h
              · simp at h
              · obtain ⟨rfl, hfil⟩ := updateNet_ok h
                  (by simpa using hl) hstored hnone
                exact ⟨rfl, rfl, rfl, rfl, ⟨en0, rfl⟩, rfl, rfl, hfil⟩
          · simp at h
          · simp at h

/-- The function `readAddrs` distributes over cons. -/
theorem readAddrs_cons (a : MemAccess) (rest : List MemAccess) :
    readAddrs (a :: rest) = readAddrs [a] ++ readAddrs rest := by
  cases a <;> simp [readAddrs]

/-- The function `writeAddrs` distributes over cons. -/
theorem writeAddrs_cons (a : MemAccess) (rest : List MemAccess) :
    writeAddrs (a :: rest) = writeAddrs [a] ++ writeAddrs rest := by
  cases a <;> simp [writeAddrs]

/-- The function `writeDatas` distributes over cons. -/
theorem writeDatas_cons (a : MemAccess) (rest : List MemAccess) :
    writeDatas (a :: rest) = writeDatas [a] ++ writeDatas rest := by
  cases a <;> simp [writeDatas]

/-- One successful access preserves the memory-block invariant,
appends the expected ports, and re-derives the cached node. -/
theorem memStep_ok {m : MemBlock} {a : MemAccess} {b : Block}
    {m1 : MemBlock} {b1 : Block}
    (hinv : memInv m b)
    (h : memStep m a b = (.ok m1, b1)) :
    memInv m1 b1 ∧ m1.id = m.id ∧
    m1.stored_net = some m1.derivedNet ∧
    m1.read_addr = m.read_addr ++ readAddrs [a] ∧
    m1.write_addr = m.write_addr ++ writeAddrs [a] ∧
    m1.write_data = m.write_data ++ writeDatas [a] := by
  obtain ⟨hww, hwe, hrr, hst⟩ := hinv
  have hstored : ∀ n, m.stored_net = some n →
      b.logic.filter (netHasMemId m.id) = [n] := by
    intro n hn
    rw [hn] at hst
    exact hst.2
  have hnone : m.stored_net = none →
      b.logic.filter (netHasMemId m.id) = [] := by
    intro hn
    rw [hn] at hst
    exact hst
  cases a with
  | readA addr =>
      simp only [memStep] at h
      split at h
      · simp at h
      · rename_i d mres bres heqg
        simp only [Prod.mk.injEq, Except.ok.injEq] at h
        obtain ⟨rfl, rfl⟩ := h
        obtain ⟨h1, h2, h3, h4, h5, h6, h7, h8⟩ :=
          memGetitem_ok hww hstored hnone heqg
        refine ⟨⟨?_, ?_, ?_, ?_⟩, h6, h7, ?_, ?_, ?_⟩
        · rw [h3, h4]
          exact hww
        · rw [h4, h5]
          exact hwe
        · rw [h1, h2]
          simp [hrr]
        · rw [h7]
          refine ⟨rfl, ?_⟩
          rw [← h6] at h8
          exact h8
        · rw [h1]
          simp [readAddrs]
        · rw [h3]
          simp [writeAddrs]
        · rw [h4]
          simp [writeDatas]
  | writeA addr val =>
      simp only [memStep] at h
      obtain ⟨h1, h2, h3, h4, ⟨en, h5⟩, h6, h7, h8⟩ :=
        memSetitem_ok hww hstored hnone h
      refine ⟨⟨?_, ?_, ?_, ?_⟩, h6, h7, ?_, ?_, ?_⟩
      · rw [h3, h4]
        simp [hww]
      · rw [h4, h5]
        simp [hwe]
      · rw [h1, h2, hrr]
      · rw [h7]
        refine ⟨rfl, ?_⟩
        rw [← h6] at h8
        exact h8
      · rw [h1]
        simp [readAddrs]
      · rw [h3]
        simp [writeAddrs]
      · rw [h4]
        simp [writeDatas]

/-- A successful run of accesses starting from an invariant-satisfying
state preserves the invariant, accumulates the ports in call order, and
leaves the cached node re-derived whenever at least one access ran. -/
theorem memRun_props (as : List MemAccess) (m : MemBlock) (b : Block)
    (m' : MemBlock) (b' : Block)
    (hinv : memInv m b)
    (h : memRun m as b = (.ok m', b')) :
    memInv m' b' ∧ m'.id = m.id ∧
    m'.read_addr = m.read_addr ++ readAddrs as ∧
    m'.write_addr = m.write_addr ++ writeAddrs as ∧
    m'.write_data = m.write_data ++ writeDatas as ∧
    (as = [] → m' = m ∧ b' = b) ∧
    (as ≠ [] → m'.stored_net = some m'.derivedNet) := by
  induction as generalizing m b with
  | nil =>
      simp only [memRun] at h
      simp only [Prod.mk.injEq, Except.ok.injEq] at h
      obtain ⟨rfl, rfl⟩ := h
      exact ⟨hinv, rfl, by simp [readAddrs], by simp [writeAddrs],
        by simp [writeDatas], fun _ => ⟨rfl, rfl⟩, fun hne => absurd rfl hne⟩
  | cons a rest ih =>
      simp only [memRun] at h
      split at h
      · simp at h
      · rename_i mm bm heqs
        obtain ⟨hinvs, hids, hsts, hras, hwas, hwds⟩ :=
          memStep_ok hinv heqs
        obtain ⟨hinv', hid', hra', hwa', hwd', hnil', hne'⟩ :=
          ih mm bm hinvs h
        refine ⟨hinv', by rw [hid', hids], ?_, ?_, ?_,
          by simp, fun _ => ?_⟩
        · rw [hra', hras, readAddrs_cons a rest, List.append_assoc]
        · rw [hwa', hwas, writeAddrs_cons a rest, List.append_assoc]
        · rw [hwd', hwds, writeDatas_cons a rest, List.append_assoc]
        · rcases eq_or_ne rest [] with rfl | hre
          · obtain ⟨rfl, rfl⟩ := hnil' rfl
            exact hsts
          · exact hne' hre

/-- Claim C5: after every successful sequence of accesses on a fresh
memory block, the netlist holds exactly one live node of the block's
identity; its inputs are all read addresses in call order followed by
the per-port (address, data, enable) write triples, its outputs are the
read-data wires in call order, and its parameter is the
(identity, read-port count, write-port count) triple. -/
theorem memblock_single_live_node (m : MemBlock) (b : Block)
    (as : List MemAccess) (m' : MemBlock) (b' : Block)
    (hfresh : m.stored_net = none ∧ m.read_addr = [] ∧
      m.read_data = [] ∧ m.write_addr = [] ∧ m.write_data = [] ∧
      m.write_enable = [])
    (hb : b.logic.filter (netHasMemId m.id) = [])
    (hne : as ≠ [])
    (h : memRun m as b = (.ok m', b')) :
    b'.logic.filter (netHasMemId m.id) = [m'.derivedNet] ∧
    m'.derivedNet = ⟨some .mem,
      .memp m.id m'.read_addr.length m'.write_addr.length,
      m'.read_addr ++
        flattenWrites m'.write_addr m'.write_data m'.write_enable,
      m'.read_data⟩ ∧
    m'.read_addr = readAddrs as ∧
    m'.read_data.length = (readAddrs as).length ∧
    m'.write_addr = writeAddrs as ∧
    m'.write_data = writeDatas as := by
  obtain ⟨hs0, hr0, hd0, hw0, hx0, he0⟩ := hfresh
  have hinv : memInv m b := by
    refine ⟨by rw [hw0, hx0], by rw [hx0, he0], by rw [hr0, hd0], ?_⟩
    rw [hs0]
    exact hb
  obtain ⟨hinv', hid', hra', hwa', hwd', -, hne'⟩ :=
    memRun_props as m b m' b' hinv h
  have hst := hne' hne
  obtain ⟨-, -, hrd', hmatch⟩ := hinv'
  rw [hst] at hmatch
  obtain ⟨-, hfil⟩ := hmatch
  have hraeq : m'.read_addr = readAddrs as := by
    rw [hra', hr0, List.nil_append]
  refine ⟨?_, ?_, hraeq, ?_, ?_, ?_⟩
  · rw [← hid']
    exact hfil
  · unfold MemBlock.derivedNet
    rw [hid']
  · rw [← hrd', hraeq]
  · rw [hwa', hw0, List.nil_append]
  · rw [hwd', hx0, List.nil_append]

/-- Witness for C5: one read then one enabled write on a fresh 1-bit
memory leave exactly one live memory node of the expected shape. -/
theorem memblock_single_live_node_witness :
    (memRun memM accsM blkM).2.logic.filter (netHasMemId memM.id) =
      [memM2.derivedNet] ∧
    memM2.read_addr = readAddrs accsM :=
  ⟨(memblock_single_live_node memM blkM accsM memM2
      ((memRun memM accsM blkM).2) ⟨rfl, rfl, rfl, rfl, rfl, rfl⟩ rfl
      (by decide) rfl).1,
   (memblock_single_live_node memM blkM accsM memM2
      ((memRun memM accsM blkM).2) ⟨rfl, rfl, rfl, rfl, rfl, rfl⟩ rfl
      (by decide) rfl).2.2.1⟩

end PyRTL
